import Mathlib

/-!
Verification of the `path_helpers` library core against its design
specification.

Two subsystems are embedded from `src/path_helpers/__init__.py`:

* the conflict resolver `path.noconflict` (lines 882-898), built on the
  regex `^(?P<name>.*?)(?P<copy> \(Copy(?P<copy_count> \d+)?\))?(?P<ext>\.[^.]*)?$`
  applied to the final path segment, and
* the traversal engine `path.walk` / `path.walkdirs` / `path.walkfiles`
  (lines 307-463), embedded over an inductive directory-tree model.

Strings are modelled as `List Char`.  Python's `re` and `fnmatch`
library primitives are modelled as explicit parameters where the claims
are independent of the concrete matcher, and Python's `\d` digit class
is modelled as the ASCII digits (the only digits the claims exercise).
-/

namespace PathHelpers

/-- ASCII digit test, modelling the `\d` class of the copy regex. -/
def isDig (c : Char) : Bool := 48 ≤ c.toNat && c.toNat ≤ 57

/-- Numeric value of an ASCII digit character. -/
def digitVal (c : Char) : Nat := c.toNat - 48

/-- Decimal value of a digit string, modelling Python's `int` applied to
the digits captured by the `copy_count` group. -/
def charsNat (ds : List Char) : Nat := ds.foldl (fun a c => 10 * a + digitVal c) 0

/-- Most-significant-first decimal digit extraction, with an explicit
fuel argument (the value itself bounds the number of digits). -/
def natCharsAux : Nat → Nat → List Char
  | 0, _ => []
  | _ + 1, 0 => []
  | f + 1, n + 1 => natCharsAux f ((n + 1) / 10) ++ [Nat.digitChar ((n + 1) % 10)]

/-- Decimal digit string of a positive natural number, modelling
Python's `'{}'.format` of an `int`. -/
def natChars (n : Nat) : List Char := if n = 0 then [] else natCharsAux n n

/-- Result of matching the final path segment against the copy regex
`^(?P<name>.*?)(?P<copy> \(Copy(?P<copy_count> \d+)?\))?(?P<ext>\.[^.]*)?$`:
the `name` group, the optional `copy` group (with its optional numeric
`copy_count`), and the optional `ext` group. -/
structure CopyGroups where
  name : List Char
  copy : Option (Option Nat)
  ext : Option (List Char)
deriving Repr, DecidableEq

/-- Match of the `copy` group ` \(Copy( \d+)?\)` at the head of `l`:
returns the optional numeric count and the remaining characters.
The inner `\d+` is greedy and must be followed by `)`, so the match
extent is unique. -/
def matchMarker (l : List Char) : Option (Option Nat × List Char) :=
  match l with
  | ' ' :: '(' :: 'C' :: 'o' :: 'p' :: 'y' :: ')' :: r => some (none, r)
  | ' ' :: '(' :: 'C' :: 'o' :: 'p' :: 'y' :: ' ' :: r2 =>
    if r2.takeWhile isDig = [] then none
    else if (r2.dropWhile isDig).head? = some ')' then
      some (some (charsNat (r2.takeWhile isDig)), (r2.dropWhile isDig).tail)
    else none
  | _ => none

/-- Match of the anchored tail `(\.[^.]*)?$` against the whole of `l`:
`some none` when the group is absent (`l` empty), `some (some e)` when
`l` is a dot followed by dot-free characters. -/
def matchExt (l : List Char) : Option (Option (List Char)) :=
  match l with
  | [] => some none
  | '.' :: t => if '.' ∈ t then none else some (some ('.' :: t))
  | _ => none

/-- Attempt to complete the regex match at the current position: the
greedy optional `copy` group is tried first; if it matches, the rest
must be the anchored extension tail.  If the marker is absent the whole
remainder must be the extension tail (a remainder beginning with `' '`
can never be one, matching the regex backtracking behaviour). -/
def matchAt (l : List Char) : Option (Option (Option Nat) × Option (List Char)) :=
  match matchMarker l with
  | some (c, r) =>
    match matchExt r with
    | some e => some (some c, e)
    | none => none
  | none =>
    match matchExt l with
    | some e => some (none, e)
    | none => none

/-- The lazy `(?P<name>.*?)` scan: grow the name one character at a time
until the rest of the regex matches the remainder.  `acc` holds the
name characters consumed so far, in reverse.  (On the empty remainder
the regex always completes with both optional groups absent, which is
exactly `matchAt [] = some (none, none)`.) -/
def parseAux : List Char → List Char → CopyGroups
  | acc, [] => ⟨acc.reverse, none, none⟩
  | acc, ch :: rs =>
    match matchAt (ch :: rs) with
    | some (c, e) => ⟨acc.reverse, c, e⟩
    | none => parseAux (ch :: acc) rs

/-- `cre_copy.match(name).groupdict()` of the source: full-anchored
match of the copy regex against a final path segment. -/
def copyGroups (s : List Char) : CopyGroups := parseAux [] s

/-- The serialized copy marker ` (Copy)` / ` (Copy n)`. -/
def markerChars : Option Nat → List Char
  | none => ' ' :: '(' :: 'C' :: 'o' :: 'p' :: 'y' :: [')']
  | some n => ' ' :: '(' :: 'C' :: 'o' :: 'p' :: 'y' :: ' ' :: (natChars n ++ [')'])

/-- The incremented copy count the loop body computes: absent marker
keeps `copy_count` at `None`; a present marker sets it to
`(copy_count or 0) + 1`. -/
def nextCount (c : Option (Option Nat)) : Option Nat :=
  c.map (fun cc => cc.getD 0 + 1)

/-- One iteration of the `noconflict` loop body: parse the current
segment and rebuild `'{name} (Copy{}){}'` with the incremented count
(the count is formatted only when truthy, and after increment it is
always at least 1). -/
def nextCandidateName (s : List Char) : List Char :=
  let g := copyGroups s
  g.name ++ markerChars (nextCount g.copy) ++ g.ext.getD []

/-- `path.noconflict`, with the filesystem `exists()` test abstracted
into the predicate `ex` and an explicit fuel bound making the `while`
loop a total function (`none` means the fuel ran out while every tried
candidate still existed).  The path's directory part is constant
through the loop, so candidates are represented by their final
segment. -/
def noconflict (ex : List Char → Bool) : Nat → List Char → Option (List Char)
  | 0, s => if ex s then none else some s
  | fuel + 1, s => if ex s then noconflict ex fuel (nextCandidateName s) else some s

/-- The chain of candidates generated by repeated application of the
loop body, starting from the initial segment. -/
def copyChain (s : List Char) : Nat → List Char
  | 0 => s
  | n + 1 => nextCandidateName (copyChain s n)

/-! ### Decimal numeral facts -/

theorem digitVal_digitChar {d : Nat} (h : d < 10) : digitVal (Nat.digitChar d) = d := by
  interval_cases d <;> decide

theorem isDig_digitChar {d : Nat} (h : d < 10) : isDig (Nat.digitChar d) = true := by
  interval_cases d <;> decide

theorem charsNat_append_singleton (xs : List Char) (c : Char) :
    charsNat (xs ++ [c]) = 10 * charsNat xs + digitVal c := by
  simp [charsNat, List.foldl_append]

theorem natCharsAux_spec :
    ∀ (f n : Nat), n ≤ f → charsNat (natCharsAux f n) = n ∧
      (∀ c ∈ natCharsAux f n, isDig c = true) ∧ (n ≠ 0 → natCharsAux f n ≠ []) := by
  intro f
  induction f with
  | zero =>
    intro n hn
    interval_cases n
    exact ⟨rfl, by simp [natCharsAux], by simp⟩
  | succ f ih =>
    intro n hn
    match n with
    | 0 => exact ⟨rfl, by simp [natCharsAux], by simp⟩
    | n + 1 =>
      have hdiv : (n + 1) / 10 ≤ f := by
        have := Nat.div_lt_self (show 0 < n + 1 by omega) (show 1 < 10 by omega)
        omega
      obtain ⟨h1, h2, _⟩ := ih ((n + 1) / 10) hdiv
      have hmod : (n + 1) % 10 < 10 := Nat.mod_lt _ (by omega)
      refine ⟨?_, ?_, ?_⟩
      · rw [natCharsAux, charsNat_append_singleton, h1, digitVal_digitChar hmod]
        omega
      · intro c hc
        rw [natCharsAux] at hc
        rcases List.mem_append.1 hc with hc | hc
        · exact h2 c hc
        · simp only [List.mem_singleton] at hc
          subst hc
          exact isDig_digitChar hmod
      · simp [natCharsAux]

theorem charsNat_natChars (n : Nat) : charsNat (natChars n) = n := by
  unfold natChars
  by_cases h : n = 0
  · simp [h, charsNat]
  · simp only [h, if_false]
    exact (natCharsAux_spec n n le_rfl).1

theorem natChars_isDig {n : Nat} {c : Char} (h : c ∈ natChars n) : isDig c = true := by
  unfold natChars at h
  by_cases h0 : n = 0
  · simp [h0] at h
  · rw [if_neg h0] at h
    exact (natCharsAux_spec n n le_rfl).2.1 c h

theorem natChars_ne_nil {n : Nat} (h : n ≠ 0) : natChars n ≠ [] := by
  unfold natChars
  rw [if_neg h]
  exact (natCharsAux_spec n n le_rfl).2.2 h

theorem isDig_ne_dot {c : Char} (h : isDig c = true) : c ≠ '.' := by
  rintro rfl; exact absurd h (by decide)

theorem isDig_ne_close {c : Char} (h : isDig c = true) : c ≠ ')' := by
  rintro rfl; exact absurd h (by decide)

theorem isDig_ne_open {c : Char} (h : isDig c = true) : c ≠ '(' := by
  rintro rfl; exact absurd h (by decide)

theorem isDig_ne_space {c : Char} (h : isDig c = true) : c ≠ ' ' := by
  rintro rfl; exact absurd h (by decide)

/-! ### Shape facts about the regex components -/

theorem matchExt_eq_some_none {l : List Char} : matchExt l = some none ↔ l = [] := by
  constructor
  · intro h
    match l with
    | [] => rfl
    | '.' :: t =>
      simp only [matchExt] at h
      split at h <;> simp_all
    | c :: t =>
      by_cases hc : c = '.'
      · subst hc; simp only [matchExt] at h; split at h <;> simp_all
      · rw [matchExt.eq_def] at h
        match c, t, h with
        | _, _, h => split at h <;> simp_all
  · rintro rfl; rfl

theorem matchExt_eq_some_some {l : List Char} {e : List Char}
    (h : matchExt l = some (some e)) : e = l ∧ ∃ t, l = '.' :: t ∧ '.' ∉ t := by
  rw [matchExt.eq_def] at h
  split at h
  · simp at h
  · next t =>
    split at h
    · simp at h
    · next ht =>
      have he : e = '.' :: t := by simp_all
      exact ⟨he, t, rfl, ht⟩
  · simp at h

theorem matchMarker_shape {l : List Char} {c : Option Nat} {r : List Char}
    (h : matchMarker l = some (c, r)) :
    (c = none ∧ l = ' ' :: '(' :: 'C' :: 'o' :: 'p' :: 'y' :: ')' :: r) ∨
    (∃ ds, ds ≠ [] ∧ (∀ ch ∈ ds, isDig ch = true) ∧ c = some (charsNat ds) ∧
      l = ' ' :: '(' :: 'C' :: 'o' :: 'p' :: 'y' :: ' ' :: (ds ++ ')' :: r)) := by
  rw [matchMarker.eq_def] at h
  split at h
  · left; simp_all
  · next r2 =>
    split at h
    · simp at h
    · next hne =>
      split at h
      · next hhd =>
        simp only [Option.some.injEq, Prod.mk.injEq] at h
        obtain ⟨hc, hr⟩ := h
        right
        refine ⟨r2.takeWhile isDig, hne, fun ch hch => List.mem_takeWhile_imp hch,
          hc.symm, ?_⟩
        have h0 : r2.takeWhile isDig ++ r2.dropWhile isDig = r2 :=
          List.takeWhile_append_dropWhile _ _
        have h1 : r2.dropWhile isDig = ')' :: (r2.dropWhile isDig).tail := by
          cases hx : r2.dropWhile isDig with
          | nil => rw [hx] at hhd; simp at hhd
          | cons a t =>
            rw [hx] at hhd
            simp only [List.head?_cons, Option.some.injEq] at hhd
            simp [hhd]
        have h2 : r2 = r2.takeWhile isDig ++ ')' :: r := by
          conv_lhs => rw [← h0]
          rw [h1, hr]
        conv_lhs => rw [h2]
      · simp at h
  · simp at h

/-! ### Invariants of the lazy scan -/

theorem matchAt_nil : matchAt [] = some (none, none) := rfl

theorem matchAt_ext_none_shape {l : List Char} {c : Option (Option Nat)}
    (h : matchAt l = some (c, none)) : '.' ∉ l := by
  unfold matchAt at h
  cases hmm : matchMarker l with
  | some cr =>
    obtain ⟨cm, r⟩ := cr
    simp only [hmm] at h
    cases hext : matchExt r with
    | some e =>
      simp only [hext, Option.some.injEq, Prod.mk.injEq] at h
      have hr : r = [] := matchExt_eq_some_none.1 (by rw [hext, h.2])
      subst hr
      rcases matchMarker_shape hmm with ⟨_, rfl⟩ | ⟨ds, _, hds, _, rfl⟩
      · decide
      · intro hmem
        have hflat : ('.' : Char) = ' ' ∨ ('.' : Char) = '(' ∨ ('.' : Char) = 'C' ∨
            ('.' : Char) = 'o' ∨ ('.' : Char) = 'p' ∨ ('.' : Char) = 'y' ∨
            '.' ∈ ds ∨ ('.' : Char) = ')' := by simpa using hmem
        rcases hflat with h1 | h1 | h1 | h1 | h1 | h1 | h1 | h1 <;> first
          | exact absurd h1 (by decide)
          | exact isDig_ne_dot (hds '.' h1) rfl
    | none => simp [hext] at h
  | none =>
    simp only [hmm] at h
    cases hext : matchExt l with
    | some e =>
      simp only [hext, Option.some.injEq, Prod.mk.injEq] at h
      have hl : l = [] := matchExt_eq_some_none.1 (by rw [hext, h.2])
      simp [hl]
    | none => simp [hext] at h

theorem matchAt_ext_some_shape {l : List Char} {c : Option (Option Nat)} {e : List Char}
    (h : matchAt l = some (c, some e)) : ∃ t, e = '.' :: t ∧ '.' ∉ t := by
  unfold matchAt at h
  cases hmm : matchMarker l with
  | some cr =>
    obtain ⟨cm, r⟩ := cr
    simp only [hmm] at h
    cases hext : matchExt r with
    | some e2 =>
      simp only [hext, Option.some.injEq, Prod.mk.injEq] at h
      obtain ⟨heq, t, hl, ht⟩ :=
        matchExt_eq_some_some (show matchExt r = some (some e) by rw [hext, h.2])
      exact ⟨t, heq.trans hl, ht⟩
    | none => simp [hext] at h
  | none =>
    simp only [hmm] at h
    cases hext : matchExt l with
    | some e2 =>
      simp only [hext, Option.some.injEq, Prod.mk.injEq] at h
      obtain ⟨heq, t, hl, ht⟩ :=
        matchExt_eq_some_some (show matchExt l = some (some e) by rw [hext, h.2])
      exact ⟨t, heq.trans hl, ht⟩
    | none => simp [hext] at h

theorem parseAux_name_mem (rest : List Char) :
    ∀ (acc : List Char) (c : Char), c ∈ (parseAux acc rest).name → c ∈ acc ∨ c ∈ rest := by
  induction rest with
  | nil =>
    intro acc c h
    simp only [parseAux, List.mem_reverse] at h
    exact Or.inl h
  | cons ch rs ih =>
    intro acc c h
    simp only [parseAux] at h
    cases hm : matchAt (ch :: rs) with
    | some ce =>
      obtain ⟨c1, e1⟩ := ce
      simp only [hm, List.mem_reverse] at h
      exact Or.inl h
    | none =>
      simp only [hm] at h
      rcases ih (ch :: acc) c h with h1 | h1
      · rcases List.mem_cons.1 h1 with rfl | h2
        · exact Or.inr (List.mem_cons_self _ _)
        · exact Or.inl h2
      · exact Or.inr (List.mem_cons_of_mem _ h1)

theorem parseAux_ext_none (rest : List Char) :
    ∀ (acc : List Char), (parseAux acc rest).ext = none → '.' ∉ rest := by
  induction rest with
  | nil => intro acc _; simp
  | cons ch rs ih =>
    intro acc h
    simp only [parseAux] at h
    cases hm : matchAt (ch :: rs) with
    | some ce =>
      obtain ⟨c1, e1⟩ := ce
      simp only [hm] at h
      subst h
      exact matchAt_ext_none_shape hm
    | none =>
      simp only [hm] at h
      have hrs := ih (ch :: acc) h
      intro hmem
      rcases List.mem_cons.1 hmem with rfl | h2
      · have hsome : matchAt ('.' :: rs) = some (none, some ('.' :: rs)) := by
          unfold matchAt matchMarker matchExt
          simp [hrs]
        rw [hsome] at hm
        exact Option.noConfusion hm
      · exact hrs h2

theorem parseAux_ext_some (rest : List Char) :
    ∀ (acc : List Char) (e : List Char), (parseAux acc rest).ext = some e →
      ∃ t, e = '.' :: t ∧ '.' ∉ t := by
  induction rest with
  | nil =>
    intro acc e h
    simp [parseAux] at h
  | cons ch rs ih =>
    intro acc e h
    simp only [parseAux] at h
    cases hm : matchAt (ch :: rs) with
    | some ce =>
      obtain ⟨c1, e1⟩ := ce
      simp only [hm] at h
      subst h
      exact matchAt_ext_some_shape hm
    | none =>
      simp only [hm] at h
      exact ih (ch :: acc) e h

/-- When the parse reports no extension, the whole segment is dot-free. -/
theorem copyGroups_ext_none_dot {s : List Char} (h : (copyGroups s).ext = none) : '.' ∉ s :=
  parseAux_ext_none s [] h

/-- The parsed name consists of characters of the segment. -/
theorem copyGroups_name_mem {s : List Char} {c : Char} (h : c ∈ (copyGroups s).name) : c ∈ s := by
  rcases parseAux_name_mem s [] c h with h1 | h1
  · simp at h1
  · exact h1

/-- The parsed extension is a dot followed by dot-free characters. -/
theorem copyGroups_ext_shape {s e : List Char} (h : (copyGroups s).ext = some e) :
    ∃ t, e = '.' :: t ∧ '.' ∉ t :=
  parseAux_ext_some s [] e h

/-! ### Re-parsing a generated candidate name -/

theorem takeWhile_digits_close (ds : List Char) (h : ∀ c ∈ ds, isDig c = true)
    (l : List Char) :
    (ds ++ ')' :: l).takeWhile isDig = ds ∧ (ds ++ ')' :: l).dropWhile isDig = ')' :: l := by
  induction ds with
  | nil => exact ⟨by simp [List.takeWhile_cons, isDig], by simp [List.dropWhile_cons, isDig]⟩
  | cons d t ih =>
    have hd : isDig d = true := h d (List.mem_cons_self d t)
    have ht := ih (fun c hc => h c (List.mem_cons_of_mem d hc))
    simp [List.takeWhile_cons, List.dropWhile_cons, hd, ht.1, ht.2]

theorem matchMarker_markerChars (co : Option Nat) (hco : ∀ k, co = some k → k ≠ 0)
    (e' : List Char) : matchMarker (markerChars co ++ e') = some (co, e') := by
  cases co with
  | none => rfl
  | some k =>
    have hk : k ≠ 0 := hco k rfl
    have hfrm : markerChars (some k) ++ e' =
        ' ' :: '(' :: 'C' :: 'o' :: 'p' :: 'y' :: ' ' :: (natChars k ++ ')' :: e') := by
      simp [markerChars]
    rw [hfrm, matchMarker.eq_def]
    have htw := takeWhile_digits_close (natChars k) (fun c hc => natChars_isDig hc) e'
    simp [htw.1, htw.2, natChars_ne_nil hk, charsNat_natChars]

theorem matchExt_cons_ne {c : Char} {l : List Char} (hc : c ≠ '.') :
    matchExt (c :: l) = none := by
  rw [matchExt.eq_def]
  split <;> simp_all

theorem matchExt_cons_dot_mem {l : List Char} (h : '.' ∈ l) :
    matchExt ('.' :: l) = none := by
  unfold matchExt
  simp [h]

theorem markerChars_head (co : Option Nat) :
    ∃ mrest, markerChars co = ' ' :: '(' :: mrest := by
  cases co <;> exact ⟨_, rfl⟩

theorem matchAt_markerChars (co : Option Nat) (hco : ∀ k, co = some k → k ≠ 0)
    (e' : List Char) (he : e' = [] ∨ ∃ u, e' = '.' :: u ∧ '.' ∉ u) :
    matchAt (markerChars co ++ e') =
      some (some co, if e' = [] then none else some e') := by
  unfold matchAt
  rw [matchMarker_markerChars co hco e']
  rcases he with rfl | ⟨u, rfl, hu⟩
  · rfl
  · simp [matchExt, hu]

/-- Any successful marker match decomposes the input into a marker block
followed by the remainder, where the block is dot-free, ends with a
close paren, and contains an open paren only at its second position. -/
theorem matchMarker_decomp {l : List Char} {cm : Option Nat} {r : List Char}
    (h : matchMarker l = some (cm, r)) :
    ∃ M, l = M ++ r ∧ (∃ Minit, M = Minit ++ [')']) ∧ '.' ∉ M ∧
      (∃ Mtail, M = ' ' :: '(' :: Mtail ∧ '(' ∉ Mtail) := by
  rcases matchMarker_shape h with ⟨_, rfl⟩ | ⟨ds, _, hds, _, rfl⟩
  · exact ⟨[' ', '(', 'C', 'o', 'p', 'y', ')'], by simp, ⟨[' ', '(', 'C', 'o', 'p', 'y'], rfl⟩,
      by decide, ⟨['C', 'o', 'p', 'y', ')'], rfl, by decide⟩⟩
  · refine ⟨' ' :: '(' :: 'C' :: 'o' :: 'p' :: 'y' :: ' ' :: (ds ++ [')']), by simp,
      ⟨' ' :: '(' :: 'C' :: 'o' :: 'p' :: 'y' :: ' ' :: ds, by simp⟩, ?_, ?_⟩
    · intro hmem
      have hflat : ('.' : Char) = ' ' ∨ ('.' : Char) = '(' ∨ ('.' : Char) = 'C' ∨
          ('.' : Char) = 'o' ∨ ('.' : Char) = 'p' ∨ ('.' : Char) = 'y' ∨
          '.' ∈ ds ∨ ('.' : Char) = ')' := by simpa using hmem
      rcases hflat with h1 | h1 | h1 | h1 | h1 | h1 | h1 | h1 <;> first
        | exact absurd h1 (by decide)
        | exact isDig_ne_dot (hds '.' h1) rfl
    · refine ⟨'C' :: 'o' :: 'p' :: 'y' :: ' ' :: (ds ++ [')']), rfl, ?_⟩
      intro hmem
      have hflat : ('(' : Char) = 'C' ∨ ('(' : Char) = 'o' ∨ ('(' : Char) = 'p' ∨
          ('(' : Char) = 'y' ∨ ('(' : Char) = ' ' ∨ '(' ∈ ds ∨ ('(' : Char) = ')' := by
        simpa using hmem
      rcases hflat with h1 | h1 | h1 | h1 | h1 | h1 | h1 <;> first
        | exact absurd h1 (by decide)
        | exact isDig_ne_open (hds '(' h1) rfl

theorem markerChars_ne_nil (co : Option Nat) : markerChars co ≠ [] := by
  cases co <;> simp [markerChars]

/-- A strict suffix of the remainder starting inside the rebuilt name can
never complete the extension tail of the regex. -/
theorem matchExt_formatted_none (co : Option Nat) (e' : List Char)
    (he : e' = [] ∨ ∃ u, e' = '.' :: u ∧ '.' ∉ u) (x : List Char)
    (hxd : e' = [] → '.' ∉ x) :
    matchExt (x ++ markerChars co ++ e') = none := by
  obtain ⟨mrest, hmr⟩ := markerChars_head co
  cases x with
  | nil =>
    rw [List.nil_append, hmr]
    exact matchExt_cons_ne (by decide)
  | cons c xs =>
    by_cases hc : c = '.'
    · subst hc
      rcases he with rfl | ⟨u, rfl, hu⟩
      · exact absurd (List.mem_cons_self '.' xs) (hxd rfl)
      · rw [List.cons_append, List.cons_append]
        exact matchExt_cons_dot_mem (by simp)
    · rw [List.cons_append, List.cons_append]
      exact matchExt_cons_ne hc

/-- Key minimality step: at any position strictly inside the rebuilt
name, the regex tail cannot match the remainder of the generated
candidate. -/
theorem matchAt_formatted_none (co : Option Nat) (e' : List Char)
    (he : e' = [] ∨ ∃ u, e' = '.' :: u ∧ '.' ∉ u) (t : List Char)
    (ht : t ≠ []) (htd : e' = [] → '.' ∉ t) :
    matchAt (t ++ markerChars co ++ e') = none := by
  unfold matchAt
  cases hmm : matchMarker (t ++ markerChars co ++ e') with
  | none =>
    have hx := matchExt_formatted_none co e' he t htd
    rw [List.append_assoc] at hx
    simp [hx]
  | some cr =>
    obtain ⟨cm, r⟩ := cr
    obtain ⟨M, hMeq, ⟨Minit, hMinit⟩, hMdot, Mtail, hMtail, hMpar⟩ := matchMarker_decomp hmm
    rw [List.append_assoc] at hMeq
    have hsplit := List.append_eq_append_iff.1 hMeq
    rcases hsplit with ⟨a', hM_eq, hme_eq⟩ | ⟨c', ht_eq, hr_eq⟩
    · -- the marker block extends beyond the name suffix `t`
      cases a' with
      | nil =>
        -- the block is exactly `t`; the remainder starts with the marker
        have hr : markerChars co ++ e' = r := by simpa using hme_eq
        have hext : matchExt r = none := by
          rw [← hr]
          exact matchExt_formatted_none co e' he [] (by simp)
        simp [hext]
      | cons d a2 =>
        obtain ⟨mrest, hmr⟩ := markerChars_head co
        rw [hmr] at hme_eq
        simp only [List.cons_append, List.cons.injEq] at hme_eq
        obtain ⟨rfl, hme2⟩ := hme_eq
        cases a2 with
        | nil =>
          -- the block would be `t ++ [' ']`, but every block ends with `)`
          rw [hMinit] at hM_eq
          have hlast := (List.append_inj' hM_eq.symm rfl).2
          exact absurd hlast (by decide)
        | cons d2 a3 =>
          -- the block would contain a second open paren
          simp only [List.cons_append, List.cons.injEq] at hme2
          obtain ⟨rfl, _⟩ := hme2
          cases t with
          | nil => exact absurd rfl ht
          | cons th t' =>
            rw [hMtail] at hM_eq
            simp only [List.cons_append, List.cons.injEq] at hM_eq
            obtain ⟨rfl, hM2⟩ := hM_eq
            cases t' with
            | nil =>
              injection hM2 with h7 h8
              exact absurd h7 (by decide)
            | cons th2 t'' =>
              simp only [List.cons_append, List.cons.injEq] at hM2
              obtain ⟨rfl, hM3⟩ := hM2
              exact absurd (show '(' ∈ Mtail by rw [hM3]; simp) hMpar
    · -- the marker block lies inside `t`
      have hdotc : e' = [] → '.' ∉ c' := by
        intro h0 hcmem
        exact htd h0 (by rw [ht_eq]; exact List.mem_append_right M hcmem)
      have hext : matchExt r = none := by
        rw [hr_eq, ← List.append_assoc]
        exact matchExt_formatted_none co e' he c' hdotc
      simp [hext]

/-- Scanning a rebuilt candidate `name ++ marker ++ ext` finds the match
exactly at the end of `name`. -/
theorem parseAux_formatted (co : Option Nat) (hco : ∀ k, co = some k → k ≠ 0)
    (e' : List Char) (he : e' = [] ∨ ∃ u, e' = '.' :: u ∧ '.' ∉ u) :
    ∀ (nm acc : List Char), (e' = [] → '.' ∉ nm) →
      parseAux acc (nm ++ markerChars co ++ e') =
        ⟨acc.reverse ++ nm, some co, if e' = [] then none else some e'⟩ := by
  intro nm
  induction nm with
  | nil =>
    intro acc hdot
    have hma := matchAt_markerChars co hco e' he
    obtain ⟨mrest, hmr⟩ := markerChars_head co
    rw [hmr] at hma
    rw [List.nil_append, hmr]
    simp only [List.cons_append] at hma ⊢
    simp only [parseAux, hma]
    simp
  | cons ch nm' ih =>
    intro acc hdot
    have hnone := matchAt_formatted_none co e' he (ch :: nm') (by simp) hdot
    simp only [List.cons_append] at hnone ⊢
    simp only [parseAux, hnone]
    rw [ih (ch :: acc) (fun h0 hm => hdot h0 (List.mem_cons_of_mem ch hm))]
    simp

/-- Re-parsing the candidate generated by one loop iteration recovers
exactly the base name, the incremented marker, and the extension. -/
theorem copyGroups_nextCandidateName (s : List Char) :
    copyGroups (nextCandidateName s) =
      ⟨(copyGroups s).name, some (nextCount (copyGroups s).copy), (copyGroups s).ext⟩ := by
  have hco : ∀ k, nextCount (copyGroups s).copy = some k → k ≠ 0 := by
    intro k hk
    cases hc : (copyGroups s).copy with
    | none => rw [hc] at hk; simp [nextCount] at hk
    | some cc => rw [hc] at hk; simp [nextCount] at hk; omega
  have he : (copyGroups s).ext.getD [] = [] ∨
      ∃ u, (copyGroups s).ext.getD [] = '.' :: u ∧ '.' ∉ u := by
    cases hx : (copyGroups s).ext with
    | none => exact Or.inl rfl
    | some e =>
      obtain ⟨u, hu, hd⟩ := copyGroups_ext_shape hx
      exact Or.inr ⟨u, by simpa using hu, hd⟩
  have hdot : (copyGroups s).ext.getD [] = [] → '.' ∉ (copyGroups s).name := by
    intro h0 hmem
    have hextn : (copyGroups s).ext = none := by
      cases hx : (copyGroups s).ext with
      | none => rfl
      | some e =>
        obtain ⟨u, hu, _⟩ := copyGroups_ext_shape hx
        rw [hx] at h0
        simp only [Option.getD_some] at h0
        rw [h0] at hu
        exact absurd hu (by simp)
    exact copyGroups_ext_none_dot hextn (copyGroups_name_mem hmem)
  have hmain := parseAux_formatted (nextCount (copyGroups s).copy) hco
    ((copyGroups s).ext.getD []) he (copyGroups s).name [] hdot
  have hrw : nextCandidateName s =
      (copyGroups s).name ++ markerChars (nextCount (copyGroups s).copy) ++
        (copyGroups s).ext.getD [] := rfl
  rw [hrw, copyGroups, hmain]
  cases hx : (copyGroups s).ext with
  | none => simp [hx]
  | some e =>
    obtain ⟨u, hu, _⟩ := copyGroups_ext_shape hx
    simp [hx, hu]

/-! ### The noconflict loop -/

theorem copyChain_shift (s : List Char) :
    ∀ j, copyChain s (j + 1) = copyChain (nextCandidateName s) j
  | 0 => rfl
  | j + 1 => by
    rw [copyChain, copyChain_shift s j]
    rfl

theorem noconflict_of_not_ex (ex : List Char → Bool) (fuel : Nat) (s : List Char)
    (h : ex s = false) : noconflict ex fuel s = some s := by
  cases fuel <;> simp [noconflict, h]

theorem noconflict_first (ex : List Char → Bool) :
    ∀ (n : Nat) (s : List Char) (fuel : Nat), n ≤ fuel →
      (∀ j, j < n → ex (copyChain s j) = true) → ex (copyChain s n) = false →
      noconflict ex fuel s = some (copyChain s n) := by
  intro n
  induction n with
  | zero =>
    intro s fuel _ _ h0
    exact noconflict_of_not_ex ex fuel s h0
  | succ n ih =>
    intro s fuel hf hall hn
    obtain ⟨f', rfl⟩ : ∃ f', fuel = f' + 1 := ⟨fuel - 1, by omega⟩
    have h0 : ex s = true := hall 0 (Nat.succ_pos n)
    rw [noconflict, h0]
    simp only [if_true]
    rw [copyChain_shift s n] at hn
    have hall' : ∀ j, j < n → ex (copyChain (nextCandidateName s) j) = true := by
      intro j hj
      rw [← copyChain_shift s j]
      exact hall (j + 1) (by omega)
    rw [ih (nextCandidateName s) f' (by omega) hall' hn, copyChain_shift s n]

/-! ### Claim theorems for the conflict resolver -/

/-- Modelled from the spec: the serialization rule of §4.2 for a parsed
candidate, stated with the spec's literal name shapes `"name (Copy)ext"`,
`"name (Copy 1)ext"` and `"name (Copy N+1)ext"`. -/
def specNextName (g : CopyGroups) : List Char :=
  match g.copy with
  | none => g.name ++ (" (Copy)").toList ++ g.ext.getD []
  | some none => g.name ++ (" (Copy 1)").toList ++ g.ext.getD []
  | some (some n) =>
    g.name ++ (" (Copy ").toList ++ natChars (n + 1) ++ (")").toList ++ g.ext.getD []

/-- The resolver's serialization of a parsed triple
`{baseName, copyCount, extension}`. -/
def formatTriple (g : CopyGroups) : List Char :=
  g.name ++ (match g.copy with | none => [] | some c => markerChars c) ++ g.ext.getD []

/-- C1: for every final segment, the next candidate derived by
`noconflict` follows the spec rule — no marker gives `name (Copy)ext`, a
bare marker gives `name (Copy 1)ext`, and a marker with number `N`
gives `name (Copy N+1)ext`; moreover the two spec scenarios for
`report.txt` produce `report (Copy).txt` and then `report (Copy 1).txt`. -/
theorem noconflict_derivation_rule :
    (∀ s : List Char, nextCandidateName s = specNextName (copyGroups s)) ∧
    noconflict (fun c => decide (c = "report.txt".toList)) 2 ("report.txt".toList) =
      some ("report (Copy).txt".toList) ∧
    noconflict
      (fun c => decide (c = "report.txt".toList) || decide (c = "report (Copy).txt".toList))
      3 ("report.txt".toList) = some ("report (Copy 1).txt".toList) := by
  refine ⟨?_, by decide, by decide⟩
  intro s
  simp only [nextCandidateName, specNextName, nextCount]
  cases hc : (copyGroups s).copy with
  | none => rfl
  | some cc =>
    cases cc with
    | none => rfl
    | some n => simp [markerChars]

/-- C4: the copy grammar is closed under the resolver's generation step:
re-parsing the serialized form of the triple the resolver produces gives
back exactly that triple (same base name, same copy count, same
extension). -/
theorem copy_grammar_roundtrip :
    ∀ s : List Char,
      nextCandidateName s =
        formatTriple ⟨(copyGroups s).name, some (nextCount (copyGroups s).copy),
          (copyGroups s).ext⟩ ∧
      copyGroups (formatTriple ⟨(copyGroups s).name, some (nextCount (copyGroups s).copy),
          (copyGroups s).ext⟩) =
        ⟨(copyGroups s).name, some (nextCount (copyGroups s).copy), (copyGroups s).ext⟩ := by
  intro s
  constructor
  · rfl
  · exact copyGroups_nextCandidateName s

/-- C5: the loop returns the first chain element the existence predicate
rejects (in particular the unchanged input when it does not exist), and
re-running it with the returned candidate added to the predicate
advances along the chain instead of looping. -/
theorem noconflict_terminates_first :
    (∀ (ex : List Char → Bool) (s : List Char) (fuel : Nat),
      ex s = false → noconflict ex fuel s = some s) ∧
    (∀ (ex : List Char → Bool) (s : List Char) (n fuel : Nat),
      n ≤ fuel → (∀ j, j < n → ex (copyChain s j) = true) → ex (copyChain s n) = false →
      noconflict ex fuel s = some (copyChain s n)) ∧
    (∀ (ex : List Char → Bool) (s : List Char) (n fuel : Nat),
      n ≤ fuel → (∀ j, j < n → ex (copyChain s j) = true) → ex (copyChain s n) = false →
      ex (copyChain s (n + 1)) = false → copyChain s (n + 1) ≠ copyChain s n →
      noconflict (fun c => ex c || decide (c = copyChain s n)) (fuel + 1) s =
        some (copyChain s (n + 1))) := by
  refine ⟨fun ex s fuel h => noconflict_of_not_ex ex fuel s h,
    fun ex s n fuel hf hall hn => noconflict_first ex n s fuel hf hall hn,
    fun ex s n fuel hf hall hn hn1 hne => ?_⟩
  apply noconflict_first (fun c => ex c || decide (c = copyChain s n)) (n + 1) s (fuel + 1)
    (by omega)
  · intro j hj
    rcases Nat.lt_or_ge j n with hj' | hj'
    · simp [hall j hj']
    · have hj'' : j = n := by omega
      simp [hj'']
  · simp [hn1, hne]

/-- Witness for the termination and advance behaviour at the spec's
`report.txt` scenario. -/
theorem noconflict_terminates_first_witness :
    noconflict (fun c => decide (c = "report.txt".toList)) 3 ("report.txt".toList) =
      some ("report (Copy).txt".toList) ∧
    noconflict
      (fun c => decide (c = "report.txt".toList) ||
        decide (c = "report (Copy).txt".toList)) 4 ("report.txt".toList) =
      some ("report (Copy 1).txt".toList) := by
  constructor
  · have h := noconflict_terminates_first.2.1 (fun c => decide (c = "report.txt".toList))
      ("report.txt".toList) 1 3 (by omega) (by decide) (by decide)
    rw [h]
    decide
  · have h := noconflict_terminates_first.2.2 (fun c => decide (c = "report.txt".toList))
      ("report.txt".toList) 1 3 (by omega) (by decide) (by decide) (by decide) (by decide)
    rw [show copyChain ("report.txt".toList) 1 = "report (Copy).txt".toList from by decide] at h
    rw [h]
    decide

/-- C8 counterexample: `"foo (Copy 0).txt"` matches the copy grammar
with the out-of-range count `0` (the spec's grammar requires a positive
`N`), yet the resolver raises nothing: it silently coerces the count and
returns `"foo (Copy 1).txt"`. -/
theorem malformed_count_counterexample :
    copyGroups ("foo (Copy 0).txt".toList) =
      ⟨"foo".toList, some (some 0), some (".txt".toList)⟩ ∧
    noconflict (fun c => decide (c = "foo (Copy 0).txt".toList)) 2
      ("foo (Copy 0).txt".toList) = some ("foo (Copy 1).txt".toList) := by
  constructor
  · decide
  · decide

/-- C8 amended: the resolver defines no malformed-count error at all:
every count captured by the grammar is a digit string, parsed as a
nonnegative integer (zero included) and silently incremented to `N+1`;
digit strings that are not pure `\d+` (such as `" -1"`) simply fail the
marker grammar and are treated as part of the base name. -/
theorem malformed_count_is_coerced :
    (∀ (s : List Char) (n : Nat), (copyGroups s).copy = some (some n) →
      nextCandidateName s =
        (copyGroups s).name ++ markerChars (some (n + 1)) ++ (copyGroups s).ext.getD []) ∧
    copyGroups ("foo (Copy -1).txt".toList) =
      ⟨"foo (Copy -1)".toList, none, some (".txt".toList)⟩ := by
  constructor
  · intro s n hc
    simp [nextCandidateName, nextCount, hc]
  · decide

/-- Witness for the coercion rule at the out-of-range count `0`. -/
theorem malformed_count_is_coerced_witness :
    nextCandidateName ("foo (Copy 0).txt".toList) =
      (copyGroups ("foo (Copy 0).txt".toList)).name ++ markerChars (some (0 + 1)) ++
        (copyGroups ("foo (Copy 0).txt".toList)).ext.getD [] :=
  malformed_count_is_coerced.1 ("foo (Copy 0).txt".toList) 0 (by decide)

/-! ### The traversal engine

The directory tree is modelled inductively: a `badDir` is a directory
whose `listdir()` raises an I/O error carrying `cause`.  Entries are
identified by their full path as a list of segments; `str(x)` is the
`/`-joined form.  Python's `fnmatch.fnmatch` and `re.search` library
matchers are abstract parameters `fnm` and `res` — every claim proved
below holds for an arbitrary matcher. -/

inductive FSTree where
  | file (name : String)
  | dir (name : String) (children : List FSTree)
  | badDir (name : String) (cause : String)

def FSTree.name : FSTree → String
  | .file n => n
  | .dir n _ => n
  | .badDir n _ => n

/-- `is_dir()`: a `badDir` is a real directory (only listing it fails). -/
def FSTree.isDir : FSTree → Bool
  | .file _ => false
  | .dir _ _ => true
  | .badDir _ _ => true

inductive WalkErr where
  | invalidErrors
  | ioErr (p : List String) (cause : String)
deriving Repr, DecidableEq

/-- Observable outcome of one generator run: the entries yielded in
order, the warnings emitted in order (path and cause), and the
exception that terminated the run, if any. -/
structure WalkOut where
  entries : List (List String)
  warns : List (List String × String)
  err : Option WalkErr
deriving Repr, DecidableEq

def emptyOut : WalkOut := ⟨[], [], none⟩

/-- The `errors in ('strict', 'warn', 'ignore')` membership test. -/
def validErrors (errors : String) : Bool :=
  errors = "strict" || errors = "warn" || errors = "ignore"

/-- The shared `try: listdir / except` handler of the walkers. -/
def faultOut (errors : String) (p : List String) (cause : String) : WalkOut :=
  if errors = "ignore" then emptyOut
  else if errors = "warn" then ⟨[], [(p, cause)], none⟩
  else ⟨[], [], some (.ioErr p cause)⟩

/-- `str(x)` of an entry, used by the ignore regexes. -/
def strPath (p : List String) : String := String.intercalate "/" p

/-- The `ignore` argument of `walkdirs`/`walkfiles`: absent, a single
string, or an iterable of pattern strings. -/
inductive IgnoreArg where
  | noneArg
  | strArg (s : String)
  | listArg (ps : List String)
deriving Repr, DecidableEq

/-- The `ignore_match` closure shared verbatim by `walkdirs` (lines
376-382) and `walkfiles` (lines 422-428): when `ignore` is a string,
`isinstance(ignore, Iterable)` is true, so the `for ip in ignore_list`
loop iterates over its characters and hands each single character to
`re.search` as its own pattern. -/
def ignoreMatch (res : String → String → Bool) (ig : IgnoreArg) (x : String) : Bool :=
  match ig with
  | .noneArg => false
  | .strArg s => (s.toList.map (fun c => String.mk [c])).any (fun ip => res ip x)
  | .listArg ps => ps.any (fun ip => res ip x)

/-- A concrete regex matcher used to instantiate the abstract `res`
parameter in scenarios: `re.search` restricted to literal patterns is
substring containment. -/
def substrSearch (pat x : String) : Bool :=
  x.toList.tails.any (fun t => pat.toList.isPrefixOf t)

/-- Whether the final segment passes the `pattern` filter
(`pattern is None or child.fnmatch(pattern)`). -/
def patOk (fnm : String → String → Bool) (pattern : Option String) (nm : String) : Bool :=
  match pattern with
  | none => true
  | some pat => fnm nm pat

mutual

/-- `path.walk` (lines 307-352) on the subtree `t` rooted at path `p`:
validate `errors`, list the children (a `badDir` faults here), then for
each child yield it when the pattern accepts its name, and recurse when
it is a directory.  An error aborts the run, keeping what was already
yielded. -/
def walkSelf (fnm : String → String → Bool) (pattern : Option String) (errors : String)
    (p : List String) (t : FSTree) : WalkOut :=
  if !validErrors errors then ⟨[], [], some .invalidErrors⟩
  else
    match t with
    | .file _ => emptyOut
    | .badDir _ cause => faultOut errors p cause
    | .dir _ cs => walkList fnm pattern errors p cs

/-- The `for child in child_list` loop of `path.walk`. -/
def walkList (fnm : String → String → Bool) (pattern : Option String) (errors : String)
    (p : List String) (cs : List FSTree) : WalkOut :=
  match cs with
  | [] => emptyOut
  | c :: rest =>
    let pc := p ++ [c.name]
    let y : List (List String) := if patOk fnm pattern c.name then [pc] else []
    let inner := if c.isDir then walkSelf fnm pattern errors pc c else emptyOut
    match inner.err with
    | some e => ⟨y ++ inner.entries, inner.warns, some e⟩
    | none =>
      let tl := walkList fnm pattern errors p rest
      ⟨y ++ inner.entries ++ tl.entries, inner.warns ++ tl.warns, tl.err⟩

end

mutual

/-- `path.walkdirs` (lines 354-403): validate `errors`, return nothing
when the node's own path matches an ignore pattern, list the
subdirectories (a `badDir` faults here), then loop. -/
def walkdirsSelf (res fnm : String → String → Bool) (pattern : Option String)
    (errors : String) (ig : IgnoreArg) (p : List String) (t : FSTree) : WalkOut :=
  if !validErrors errors then ⟨[], [], some .invalidErrors⟩
  else if ignoreMatch res ig (strPath p) then emptyOut
  else
    match t with
    | .file _ => emptyOut
    | .badDir _ cause => faultOut errors p cause
    | .dir _ cs => walkdirsList res fnm pattern errors ig p cs

/-- The `for child in dirs` loop of `path.walkdirs`; `dirs()` keeps only
directories, which is rendered here by skipping file children.  A
directory child is yielded when the pattern accepts its name and its
path is not ignored, and is always recursed into (the recursive call
returns nothing when the child is ignored). -/
def walkdirsList (res fnm : String → String → Bool) (pattern : Option String)
    (errors : String) (ig : IgnoreArg) (p : List String) (cs : List FSTree) : WalkOut :=
  match cs with
  | [] => emptyOut
  | c :: rest =>
    if c.isDir then
      let pc := p ++ [c.name]
      let y : List (List String) :=
        if patOk fnm pattern c.name && !ignoreMatch res ig (strPath pc) then [pc] else []
      let inner := walkdirsSelf res fnm pattern errors ig pc c
      match inner.err with
      | some e => ⟨y ++ inner.entries, inner.warns, some e⟩
      | none =>
        let tl := walkdirsList res fnm pattern errors ig p rest
        ⟨y ++ inner.entries ++ tl.entries, inner.warns ++ tl.warns, tl.err⟩
    else walkdirsList res fnm pattern errors ig p rest

end

mutual

/-- `path.walkfiles` (lines 405-463): validate `errors`, return nothing
when the node's own path matches an ignore pattern, list the children
(a `badDir` faults here), then loop. -/
def walkfilesSelf (res fnm : String → String → Bool) (pattern : Option String)
    (errors : String) (ig : IgnoreArg) (p : List String) (t : FSTree) : WalkOut :=
  if !validErrors errors then ⟨[], [], some .invalidErrors⟩
  else if ignoreMatch res ig (strPath p) then emptyOut
  else
    match t with
    | .file _ => emptyOut
    | .badDir _ cause => faultOut errors p cause
    | .dir _ cs => walkfilesList res fnm pattern errors ig p cs

/-- The `for child in child_list` loop of `path.walkfiles`: a file child
is yielded when the pattern accepts its name and its path is not
ignored; a directory child is recursed into. -/
def walkfilesList (res fnm : String → String → Bool) (pattern : Option String)
    (errors : String) (ig : IgnoreArg) (p : List String) (cs : List FSTree) : WalkOut :=
  match cs with
  | [] => emptyOut
  | c :: rest =>
    let pc := p ++ [c.name]
    match c with
    | .file nm =>
      let y : List (List String) :=
        if patOk fnm pattern nm && !ignoreMatch res ig (strPath pc) then [pc] else []
      let tl := walkfilesList res fnm pattern errors ig p rest
      ⟨y ++ tl.entries, tl.warns, tl.err⟩
    | _ =>
      let inner := walkfilesSelf res fnm pattern errors ig pc c
      match inner.err with
      | some e => ⟨inner.entries, inner.warns, some e⟩
      | none =>
        let tl := walkfilesList res fnm pattern errors ig p rest
        ⟨inner.entries ++ tl.entries, inner.warns ++ tl.warns, tl.err⟩

end

/-! ### Claim theorems for the traversal engine -/

/-- C7: with an unrecognized `errors` value, each of the three walkers
fails with the invalid-policy error immediately: the outcome is the bare
error — no entry yielded, no warning emitted — and it does not depend on
the tree at all, so no listing or filesystem access happens first. -/
theorem invalid_errors_before_traversal :
    ∀ (res fnm : String → String → Bool) (pattern : Option String) (errors : String)
      (ig : IgnoreArg) (p : List String) (t : FSTree),
      validErrors errors = false →
      walkSelf fnm pattern errors p t = ⟨[], [], some .invalidErrors⟩ ∧
      walkdirsSelf res fnm pattern errors ig p t = ⟨[], [], some .invalidErrors⟩ ∧
      walkfilesSelf res fnm pattern errors ig p t = ⟨[], [], some .invalidErrors⟩ := by
  intro res fnm pattern errors ig p t h
  refine ⟨?_, ?_, ?_⟩
  · rw [walkSelf.eq_def]
    simp [h]
  · rw [walkdirsSelf.eq_def]
    simp [h]
  · rw [walkfilesSelf.eq_def]
    simp [h]

/-- Witness: `errors="loose"` is rejected before traversal on a sample
tree. -/
theorem invalid_errors_before_traversal_witness :
    walkSelf (fun nm pat => nm = pat) none "loose" ["r"] (.dir "r" [.file "f"]) =
      ⟨[], [], some .invalidErrors⟩ ∧
    walkdirsSelf substrSearch (fun nm pat => nm = pat) none "loose" .noneArg ["r"]
      (.dir "r" [.file "f"]) = ⟨[], [], some .invalidErrors⟩ ∧
    walkfilesSelf substrSearch (fun nm pat => nm = pat) none "loose" .noneArg ["r"]
      (.dir "r" [.file "f"]) = ⟨[], [], some .invalidErrors⟩ :=
  invalid_errors_before_traversal substrSearch (fun nm pat => nm = pat) none "loose"
    .noneArg ["r"] (.dir "r" [.file "f"]) (by decide)

/-- C10: a single-string `ignore` argument is iterated character by
character — an entry is excluded exactly when some single character of
the string, taken alone as a regex pattern, matches the stringified
path; it is not applied as one pattern, as the concrete instantiation
with the literal-pattern matcher shows (`"ab"` excludes `"xay"` even
though `"xay"` does not contain `"ab"`), and a walk run excludes a
subtree accordingly. -/
theorem ignore_string_iterates_chars :
    (∀ (res : String → String → Bool) (s x : String),
      ignoreMatch res (.strArg s) x =
        s.toList.any (fun c => res (String.mk [c]) x)) ∧
    ignoreMatch substrSearch (.strArg "ab") "xay" = true ∧
    substrSearch "ab" "xay" = false ∧
    (walkdirsSelf substrSearch (fun nm pat => nm = pat) none "strict" (.strArg "abc")
      ["r"] (.dir "r" [.dir "b" [.dir "d" []]])).entries = [] ∧
    (walkdirsSelf substrSearch (fun nm pat => nm = pat) none "strict" (.listArg ["abc"])
      ["r"] (.dir "r" [.dir "b" [.dir "d" []]])).entries =
      [["r", "b"], ["r", "b", "d"]] := by
  refine ⟨?_, by decide, by decide, by decide, by decide⟩
  intro res s x
  rw [ignoreMatch]
  induction s.toList with
  | nil => rfl
  | cons c t ih => simp [ih]

/-! ### Name pattern only filters the yields -/

/-- Keep only the entries whose final segment the matcher accepts. -/
def filterByPat (fnm : String → String → Bool) (pat : String) (o : WalkOut) : WalkOut :=
  ⟨o.entries.filter (fun e => fnm (e.getLastD "") pat), o.warns, o.err⟩

theorem filterByPat_emptyOut (fnm : String → String → Bool) (pat : String) :
    filterByPat fnm pat emptyOut = emptyOut := rfl

theorem filterByPat_faultOut (fnm : String → String → Bool) (pat : String)
    (errors : String) (p : List String) (cause : String) :
    filterByPat fnm pat (faultOut errors p cause) = faultOut errors p cause := by
  unfold faultOut
  split
  · rfl
  · split <;> rfl

theorem getLastD_snoc (x : String) (p : List String) : ∀ d, (p ++ [x]).getLastD d = x := by
  induction p with
  | nil => intro d; rfl
  | cons a l ih =>
    intro d
    rw [List.cons_append, List.getLastD_cons]
    exact ih a

theorem walkList_pattern_filters (fnm : String → String → Bool) (pat : String)
    (errors : String) :
    ∀ (p : List String) (cs : List FSTree),
      walkList fnm (some pat) errors p cs =
        filterByPat fnm pat (walkList fnm none errors p cs) := by
  apply walkList.induct fnm (some pat) errors
    (fun p t => walkSelf fnm (some pat) errors p t =
      filterByPat fnm pat (walkSelf fnm none errors p t))
    (fun p cs => walkList fnm (some pat) errors p cs =
      filterByPat fnm pat (walkList fnm none errors p cs))
  · intro t p h
    rw [walkSelf.eq_def, walkSelf.eq_def]
    simp only [if_pos h]
    rfl
  · intro p h nm
    rw [walkSelf.eq_def, walkSelf.eq_def]
    simp only [if_neg h]
    rfl
  · intro p h nm cause
    rw [walkSelf.eq_def, walkSelf.eq_def]
    simp only [if_neg h]
    rw [filterByPat_faultOut]
  · intro p h nm cs ih
    rw [walkSelf.eq_def, walkSelf.eq_def]
    simp only [if_neg h]
    exact ih
  · intro p
    rfl
  · intro p c rest pc inner e herr ih
    rw [walkList.eq_def, walkList.eq_def]
    simp only
    have hinner : (if c.isDir then walkSelf fnm (some pat) errors (p ++ [c.name]) c
        else emptyOut) =
        filterByPat fnm pat (if c.isDir then walkSelf fnm none errors (p ++ [c.name]) c
          else emptyOut) := by
      cases hd : c.isDir <;> simp [ih, filterByPat_emptyOut]
    rw [hinner]
    have herr2 : (filterByPat fnm pat (if c.isDir then
        walkSelf fnm none errors (p ++ [c.name]) c else emptyOut)).err = some e := by
      rw [← hinner]
      exact herr
    simp only [filterByPat] at herr2 ⊢
    rw [herr2]
    simp only [filterByPat, patOk, List.filter_cons, List.getLast?_concat]
    by_cases hb : fnm c.name pat <;> simp [hb]
  · intro p c rest pc inner herr ih1 ih2
    rw [walkList.eq_def, walkList.eq_def]
    simp only
    have hinner : (if c.isDir then walkSelf fnm (some pat) errors (p ++ [c.name]) c
        else emptyOut) =
        filterByPat fnm pat (if c.isDir then walkSelf fnm none errors (p ++ [c.name]) c
          else emptyOut) := by
      cases hd : c.isDir <;> simp [ih1, filterByPat_emptyOut]
    rw [hinner]
    have herr2 : (filterByPat fnm pat (if c.isDir then
        walkSelf fnm none errors (p ++ [c.name]) c else emptyOut)).err = none := by
      rw [← hinner]
      exact herr
    simp only [filterByPat] at herr2 ⊢
    rw [herr2, ih2]
    simp only [filterByPat, patOk, List.filter_cons, List.filter_append,
      List.getLast?_concat]
    by_cases hb : fnm c.name pat <;> simp [hb]

theorem walkSelf_pattern_filters (fnm : String → String → Bool) (pat : String)
    (errors : String) (p : List String) (t : FSTree) :
    walkSelf fnm (some pat) errors p t =
      filterByPat fnm pat (walkSelf fnm none errors p t) := by
  rw [walkSelf.eq_def, walkSelf.eq_def]
  split
  · rfl
  · match t with
    | .file nm => rfl
    | .badDir nm cause => rw [filterByPat_faultOut]
    | .dir nm cs => exact walkList_pattern_filters fnm pat errors p cs

theorem walkdirsList_pattern_filters (res fnm : String → String → Bool) (pat : String)
    (errors : String) (ig : IgnoreArg) :
    ∀ (p : List String) (cs : List FSTree),
      walkdirsList res fnm (some pat) errors ig p cs =
        filterByPat fnm pat (walkdirsList res fnm none errors ig p cs) := by
  apply walkdirsList.induct res fnm (some pat) errors ig
    (fun p t => walkdirsSelf res fnm (some pat) errors ig p t =
      filterByPat fnm pat (walkdirsSelf res fnm none errors ig p t))
    (fun p cs => walkdirsList res fnm (some pat) errors ig p cs =
      filterByPat fnm pat (walkdirsList res fnm none errors ig p cs))
  · intro t p h
    rw [walkdirsSelf.eq_def, walkdirsSelf.eq_def]
    simp only [if_pos h]
    rfl
  · intro t p h hig
    rw [walkdirsSelf.eq_def, walkdirsSelf.eq_def]
    simp only [if_neg h, if_pos hig]
    rfl
  · intro p h hig nm
    rw [walkdirsSelf.eq_def, walkdirsSelf.eq_def]
    simp only [if_neg h, if_neg hig]
    rfl
  · intro p h hig nm cause
    rw [walkdirsSelf.eq_def, walkdirsSelf.eq_def]
    simp only [if_neg h, if_neg hig]
    rw [filterByPat_faultOut]
  · intro p h hig nm cs ih
    rw [walkdirsSelf.eq_def, walkdirsSelf.eq_def]
    simp only [if_neg h, if_neg hig]
    exact ih
  · intro p
    rfl
  · intro p c rest hd pc inner e herr ih
    rw [walkdirsList.eq_def, walkdirsList.eq_def]
    simp only [if_pos hd, ih]
    have herr2 : (filterByPat fnm pat
        (walkdirsSelf res fnm none errors ig (p ++ [c.name]) c)).err =
        (walkdirsSelf res fnm none errors ig (p ++ [c.name]) c).err := rfl
    have herr3 : (walkdirsSelf res fnm none errors ig (p ++ [c.name]) c).err = some e := by
      rw [← herr2, ← ih]
      exact herr
    simp only [filterByPat] at herr3 ⊢
    rw [herr3]
    simp only [patOk, List.filter_cons, List.filter_append, List.getLast?_concat]
    by_cases hb : fnm c.name pat <;>
      by_cases hig : ignoreMatch res ig (strPath (p ++ [c.name])) <;> simp [hb, hig]
  · intro p c rest hd pc inner herr ih1 ih2
    rw [walkdirsList.eq_def, walkdirsList.eq_def]
    simp only [if_pos hd, ih1, ih2]
    have herr3 : (walkdirsSelf res fnm none errors ig (p ++ [c.name]) c).err = none := by
      have herr2 : (filterByPat fnm pat
          (walkdirsSelf res fnm none errors ig (p ++ [c.name]) c)).err =
          (walkdirsSelf res fnm none errors ig (p ++ [c.name]) c).err := rfl
      rw [← herr2, ← ih1]
      exact herr
    simp only [filterByPat] at herr3 ⊢
    rw [herr3]
    simp only [patOk, List.filter_cons, List.filter_append, List.getLast?_concat]
    by_cases hb : fnm c.name pat <;>
      by_cases hig : ignoreMatch res ig (strPath (p ++ [c.name])) <;> simp [hb, hig]
  · intro p c rest hd ih
    rw [walkdirsList.eq_def, walkdirsList.eq_def]
    simp only [if_neg hd]
    exact ih

theorem walkdirsSelf_pattern_filters (res fnm : String → String → Bool) (pat : String)
    (errors : String) (ig : IgnoreArg) (p : List String) (t : FSTree) :
    walkdirsSelf res fnm (some pat) errors ig p t =
      filterByPat fnm pat (walkdirsSelf res fnm none errors ig p t) := by
  rw [walkdirsSelf.eq_def, walkdirsSelf.eq_def]
  split
  · rfl
  · split
    · rfl
    · match t with
      | .file nm => rfl
      | .badDir nm cause => rw [filterByPat_faultOut]
      | .dir nm cs => exact walkdirsList_pattern_filters res fnm pat errors ig p cs

/-- C9: the name pattern is matched only against an entry's final
segment, and only filters which entries are yielded: a patterned run of
`walk` or `walkdirs` equals the unpatterned run with its entry list
filtered by the matcher on the final segment — warnings, errors, and in
particular the recursion itself are unchanged, so matching descendants
of non-matching directories are still yielded. -/
theorem pattern_only_filters_yields :
    (∀ (fnm : String → String → Bool) (pat errors : String) (p : List String) (t : FSTree),
      walkSelf fnm (some pat) errors p t =
        filterByPat fnm pat (walkSelf fnm none errors p t)) ∧
    (∀ (res fnm : String → String → Bool) (pat errors : String) (ig : IgnoreArg)
      (p : List String) (t : FSTree),
      walkdirsSelf res fnm (some pat) errors ig p t =
        filterByPat fnm pat (walkdirsSelf res fnm none errors ig p t)) :=
  ⟨fun fnm pat errors p t => walkSelf_pattern_filters fnm pat errors p t,
   fun res fnm pat errors ig p t => walkdirsSelf_pattern_filters res fnm pat errors ig p t⟩

/-! ### Exclusion patterns prune whole subtrees -/

theorem faultOut_entries (errors : String) (p : List String) (cause : String) :
    (faultOut errors p cause).entries = [] := by
  unfold faultOut
  split
  · rfl
  · split <;> rfl

theorem walkdirsSelf_ignored (res fnm : String → String → Bool) (pattern : Option String)
    (errors : String) (ig : IgnoreArg) (p : List String) (t : FSTree)
    (h : ignoreMatch res ig (strPath p) = true) :
    (walkdirsSelf res fnm pattern errors ig p t).entries = [] := by
  rw [walkdirsSelf.eq_def]
  by_cases hv : (!validErrors errors) = true
  · rw [if_pos hv]
  · rw [if_neg hv, if_pos h]
    rfl

theorem walkdirsSelf_invalid_entries (res fnm : String → String → Bool)
    (pattern : Option String) (errors : String) (ig : IgnoreArg) (p : List String)
    (t : FSTree) (h : (!validErrors errors) = true) :
    (walkdirsSelf res fnm pattern errors ig p t).entries = [] := by
  rw [walkdirsSelf.eq_def, if_pos h]

theorem walkdirsSelf_file_entries (res fnm : String → String → Bool)
    (pattern : Option String) (errors : String) (ig : IgnoreArg) (p : List String)
    (nm : String) :
    (walkdirsSelf res fnm pattern errors ig p (.file nm)).entries = [] := by
  rw [walkdirsSelf.eq_def]
  split
  · rfl
  · split <;> rfl

theorem walkdirsSelf_badDir_entries (res fnm : String → String → Bool)
    (pattern : Option String) (errors : String) (ig : IgnoreArg) (p : List String)
    (nm cause : String) :
    (walkdirsSelf res fnm pattern errors ig p (.badDir nm cause)).entries = [] := by
  rw [walkdirsSelf.eq_def]
  split
  · rfl
  · split
    · rfl
    · exact faultOut_entries errors p cause

theorem walkdirsSelf_dir_eq (res fnm : String → String → Bool) (pattern : Option String)
    (errors : String) (ig : IgnoreArg) (p : List String) (nm : String) (cs : List FSTree)
    (h : ¬ (!validErrors errors) = true) (hig : ¬ ignoreMatch res ig (strPath p) = true) :
    walkdirsSelf res fnm pattern errors ig p (.dir nm cs) =
      walkdirsList res fnm pattern errors ig p cs := by
  rw [walkdirsSelf.eq_def, if_neg h, if_neg hig]

theorem walkdirsList_entries_extend (res fnm : String → String → Bool)
    (pattern : Option String) (errors : String) (ig : IgnoreArg) :
    ∀ (p : List String) (cs : List FSTree),
      ∀ e ∈ (walkdirsList res fnm pattern errors ig p cs).entries,
        ∃ w, w ≠ [] ∧ e = p ++ w := by
  apply walkdirsList.induct res fnm pattern errors ig
    (fun p t => ∀ e ∈ (walkdirsSelf res fnm pattern errors ig p t).entries,
      ∃ w, w ≠ [] ∧ e = p ++ w)
    (fun p cs => ∀ e ∈ (walkdirsList res fnm pattern errors ig p cs).entries,
      ∃ w, w ≠ [] ∧ e = p ++ w)
  · intro t p h e he
    rw [walkdirsSelf_invalid_entries res fnm pattern errors ig p t h] at he
    simp at he
  · intro t p h hig e he
    rw [walkdirsSelf_ignored res fnm pattern errors ig p t hig] at he
    simp at he
  · intro p h hig nm e he
    rw [walkdirsSelf_file_entries] at he
    simp at he
  · intro p h hig nm cause e he
    rw [walkdirsSelf_badDir_entries] at he
    simp at he
  · intro p h hig nm cs ih e he
    rw [walkdirsSelf_dir_eq res fnm pattern errors ig p nm cs h hig] at he
    exact ih e he
  · intro p e he
    rw [walkdirsList.eq_def] at he
    simp [emptyOut] at he
  · intro p c rest hd pc inner e2 herr ih e he
    have herr' : (walkdirsSelf res fnm pattern errors ig (p ++ [c.name]) c).err = some e2 :=
      herr
    rw [walkdirsList.eq_def] at he
    simp only [if_pos hd, herr'] at he
    simp only [WalkOut.entries, List.mem_append] at he
    rcases he with he | he
    · refine ⟨[c.name], by simp, ?_⟩
      split at he
      · simp only [List.mem_singleton] at he
        exact he
      · simp at he
    · obtain ⟨w, hw, rfl⟩ := ih e he
      exact ⟨c.name :: w, by simp,
        show (p ++ [c.name]) ++ w = p ++ c.name :: w by simp⟩
  · intro p c rest hd pc inner herr ih1 ih2 e he
    have herr' : (walkdirsSelf res fnm pattern errors ig (p ++ [c.name]) c).err = none :=
      herr
    rw [walkdirsList.eq_def] at he
    simp only [if_pos hd, herr'] at he
    simp only [WalkOut.entries, List.mem_append] at he
    rcases he with (he | he) | he
    · refine ⟨[c.name], by simp, ?_⟩
      split at he
      · simp only [List.mem_singleton] at he
        exact he
      · simp at he
    · obtain ⟨w, hw, rfl⟩ := ih1 e he
      exact ⟨c.name :: w, by simp,
        show (p ++ [c.name]) ++ w = p ++ c.name :: w by simp⟩
    · exact ih2 e he
  · intro p c rest hd ih e he
    rw [walkdirsList.eq_def] at he
    simp only [if_neg hd] at he
    exact ih e he

theorem walkdirsSelf_entries_extend (res fnm : String → String → Bool)
    (pattern : Option String) (errors : String) (ig : IgnoreArg) (p : List String)
    (t : FSTree) :
    ∀ e ∈ (walkdirsSelf res fnm pattern errors ig p t).entries,
      ∃ w, w ≠ [] ∧ e = p ++ w := by
  intro e he
  by_cases hv : (!validErrors errors) = true
  · rw [walkdirsSelf_invalid_entries res fnm pattern errors ig p t hv] at he
    simp at he
  · by_cases hig : ignoreMatch res ig (strPath p) = true
    · rw [walkdirsSelf_ignored res fnm pattern errors ig p t hig] at he
      simp at he
    · match t with
      | .file nm => rw [walkdirsSelf_file_entries] at he; simp at he
      | .badDir nm cause => rw [walkdirsSelf_badDir_entries] at he; simp at he
      | .dir nm cs =>
        rw [walkdirsSelf_dir_eq res fnm pattern errors ig p nm cs hv hig] at he
        exact walkdirsList_entries_extend res fnm pattern errors ig p cs e he

/-- Every entry a `walkdirs` run yields lies strictly below the root,
and none of the strict extensions of the root on its path — the entry
itself included — matches the exclusion patterns. -/
theorem walkdirsList_no_ignored_ancestor (res fnm : String → String → Bool)
    (pattern : Option String) (errors : String) (ig : IgnoreArg) :
    ∀ (p : List String) (cs : List FSTree),
      ∀ e ∈ (walkdirsList res fnm pattern errors ig p cs).entries,
        ∀ q u, e = q ++ u → p.length < q.length →
          ignoreMatch res ig (strPath q) = false := by
  apply walkdirsList.induct res fnm pattern errors ig
    (fun p t => ∀ e ∈ (walkdirsSelf res fnm pattern errors ig p t).entries,
      ∀ q u, e = q ++ u → p.length < q.length → ignoreMatch res ig (strPath q) = false)
    (fun p cs => ∀ e ∈ (walkdirsList res fnm pattern errors ig p cs).entries,
      ∀ q u, e = q ++ u → p.length < q.length → ignoreMatch res ig (strPath q) = false)
  · intro t p h e he
    rw [walkdirsSelf_invalid_entries res fnm pattern errors ig p t h] at he
    simp at he
  · intro t p h hig e he
    rw [walkdirsSelf_ignored res fnm pattern errors ig p t hig] at he
    simp at he
  · intro p h hig nm e he
    rw [walkdirsSelf_file_entries] at he
    simp at he
  · intro p h hig nm cause e he
    rw [walkdirsSelf_badDir_entries] at he
    simp at he
  · intro p h hig nm cs ih e he
    rw [walkdirsSelf_dir_eq res fnm pattern errors ig p nm cs h hig] at he
    exact ih e he
  · intro p e he
    rw [walkdirsList.eq_def] at he
    simp [emptyOut] at he
  · intro p c rest hd pc inner e2 herr ih e he
    have herr' : (walkdirsSelf res fnm pattern errors ig (p ++ [c.name]) c).err = some e2 :=
      herr
    rw [walkdirsList.eq_def] at he
    simp only [if_pos hd, herr'] at he
    simp only [WalkOut.entries, List.mem_append] at he
    rcases he with he | he
    · split at he
      · next hcond =>
        simp only [List.mem_singleton] at he
        subst he
        intro q u heq hlen
        have hlen2 : q.length + u.length = p.length + 1 := by
          have hl := congrArg List.length heq
          simpa using hl.symm
        have hu : u = [] := List.length_eq_zero.1 (by omega)
        subst hu
        have hq : q = p ++ [c.name] := by simpa using heq.symm
        subst hq
        simp only [Bool.and_eq_true] at hcond
        simpa using hcond.2
      · simp at he
    · have hig2 : ignoreMatch res ig (strPath (p ++ [c.name])) = false := by
        by_cases hig3 : ignoreMatch res ig (strPath (p ++ [c.name])) = true
        · rw [walkdirsSelf_ignored res fnm pattern errors ig (p ++ [c.name]) c hig3] at he
          simp at he
        · simpa using hig3
      obtain ⟨w, hw, hew⟩ :=
        walkdirsSelf_entries_extend res fnm pattern errors ig (p ++ [c.name]) c e he
      intro q u heq hlen
      rcases Nat.lt_or_ge (p.length + 1) q.length with hql | hql
      · exact ih e he q u heq
          (show (p ++ [c.name]).length < q.length by simp; omega)
      · have hqe : q = p ++ [c.name] := by
          have hlq : q.length = p.length + 1 := by omega
          have heq2 : (p ++ [c.name]) ++ w = q ++ u := by rw [← hew, heq]
          have := List.append_inj heq2 (by simpa using hlq.symm)
          exact this.1.symm
        rw [hqe]
        exact hig2
  · intro p c rest hd pc inner herr ih1 ih2 e he
    have herr' : (walkdirsSelf res fnm pattern errors ig (p ++ [c.name]) c).err = none :=
      herr
    rw [walkdirsList.eq_def] at he
    simp only [if_pos hd, herr'] at he
    simp only [WalkOut.entries, List.mem_append] at he
    rcases he with (he | he) | he
    · split at he
      · next hcond =>
        simp only [List.mem_singleton] at he
        subst he
        intro q u heq hlen
        have hlen2 : q.length + u.length = p.length + 1 := by
          have hl := congrArg List.length heq
          simpa using hl.symm
        have hu : u = [] := List.length_eq_zero.1 (by omega)
        subst hu
        have hq : q = p ++ [c.name] := by simpa using heq.symm
        subst hq
        simp only [Bool.and_eq_true] at hcond
        simpa using hcond.2
      · simp at he
    · have hig2 : ignoreMatch res ig (strPath (p ++ [c.name])) = false := by
        by_cases hig3 : ignoreMatch res ig (strPath (p ++ [c.name])) = true
        · rw [walkdirsSelf_ignored res fnm pattern errors ig (p ++ [c.name]) c hig3] at he
          simp at he
        · simpa using hig3
      obtain ⟨w, hw, hew⟩ :=
        walkdirsSelf_entries_extend res fnm pattern errors ig (p ++ [c.name]) c e he
      intro q u heq hlen
      rcases Nat.lt_or_ge (p.length + 1) q.length with hql | hql
      · exact ih1 e he q u heq
          (show (p ++ [c.name]).length < q.length by simp; omega)
      · have hqe : q = p ++ [c.name] := by
          have hlq : q.length = p.length + 1 := by omega
          have heq2 : (p ++ [c.name]) ++ w = q ++ u := by rw [← hew, heq]
          have := List.append_inj heq2 (by simpa using hlq.symm)
          exact this.1.symm
        rw [hqe]
        exact hig2
    · exact ih2 e he
  · intro p c rest hd ih e he
    rw [walkdirsList.eq_def] at he
    simp only [if_neg hd] at he
    exact ih e he

theorem walkdirsSelf_no_ignored_ancestor (res fnm : String → String → Bool)
    (pattern : Option String) (errors : String) (ig : IgnoreArg) (p : List String)
    (t : FSTree) :
    ∀ e ∈ (walkdirsSelf res fnm pattern errors ig p t).entries,
      ∀ q u, e = q ++ u → p.length < q.length →
        ignoreMatch res ig (strPath q) = false := by
  intro e he
  by_cases hv : (!validErrors errors) = true
  · rw [walkdirsSelf_invalid_entries res fnm pattern errors ig p t hv] at he
    simp at he
  · by_cases hig : ignoreMatch res ig (strPath p) = true
    · rw [walkdirsSelf_ignored res fnm pattern errors ig p t hig] at he
      simp at he
    · match t with
      | .file nm => rw [walkdirsSelf_file_entries] at he; simp at he
      | .badDir nm cause => rw [walkdirsSelf_badDir_entries] at he; simp at he
      | .dir nm cs =>
        rw [walkdirsSelf_dir_eq res fnm pattern errors ig p nm cs hv hig] at he
        exact walkdirsList_no_ignored_ancestor res fnm pattern errors ig p cs e he

theorem walkfilesSelf_invalid_entries (res fnm : String → String → Bool)
    (pattern : Option String) (errors : String) (ig : IgnoreArg) (p : List String)
    (t : FSTree) (h : (!validErrors errors) = true) :
    (walkfilesSelf res fnm pattern errors ig p t).entries = [] := by
  rw [walkfilesSelf.eq_def, if_pos h]

theorem walkfilesSelf_ignored (res fnm : String → String → Bool) (pattern : Option String)
    (errors : String) (ig : IgnoreArg) (p : List String) (t : FSTree)
    (h : ignoreMatch res ig (strPath p) = true) :
    (walkfilesSelf res fnm pattern errors ig p t).entries = [] := by
  rw [walkfilesSelf.eq_def]
  by_cases hv : (!validErrors errors) = true
  · rw [if_pos hv]
  · rw [if_neg hv, if_pos h]
    rfl

theorem walkfilesSelf_file_entries (res fnm : String → String → Bool)
    (pattern : Option String) (errors : String) (ig : IgnoreArg) (p : List String)
    (nm : String) :
    (walkfilesSelf res fnm pattern errors ig p (.file nm)).entries = [] := by
  rw [walkfilesSelf.eq_def]
  split
  · rfl
  · split <;> rfl

theorem walkfilesSelf_badDir_entries (res fnm : String → String → Bool)
    (pattern : Option String) (errors : String) (ig : IgnoreArg) (p : List String)
    (nm cause : String) :
    (walkfilesSelf res fnm pattern errors ig p (.badDir nm cause)).entries = [] := by
  rw [walkfilesSelf.eq_def]
  split
  · rfl
  · split
    · rfl
    · exact faultOut_entries errors p cause

theorem walkfilesSelf_dir_eq (res fnm : String → String → Bool) (pattern : Option String)
    (errors : String) (ig : IgnoreArg) (p : List String) (nm : String) (cs : List FSTree)
    (h : ¬ (!validErrors errors) = true) (hig : ¬ ignoreMatch res ig (strPath p) = true) :
    walkfilesSelf res fnm pattern errors ig p (.dir nm cs) =
      walkfilesList res fnm pattern errors ig p cs := by
  rw [walkfilesSelf.eq_def, if_neg h, if_neg hig]

theorem walkfilesList_entries_extend (res fnm : String → String → Bool)
    (pattern : Option String) (errors : String) (ig : IgnoreArg) :
    ∀ (p : List String) (cs : List FSTree),
      ∀ e ∈ (walkfilesList res fnm pattern errors ig p cs).entries,
        ∃ w, w ≠ [] ∧ e = p ++ w := by
  apply walkfilesList.induct res fnm pattern errors ig
    (fun p t => ∀ e ∈ (walkfilesSelf res fnm pattern errors ig p t).entries,
      ∃ w, w ≠ [] ∧ e = p ++ w)
    (fun p cs => ∀ e ∈ (walkfilesList res fnm pattern errors ig p cs).entries,
      ∃ w, w ≠ [] ∧ e = p ++ w)
  · intro t p h e he
    rw [walkfilesSelf_invalid_entries res fnm pattern errors ig p t h] at he
    simp at he
  · intro t p h hig e he
    rw [walkfilesSelf_ignored res fnm pattern errors ig p t hig] at he
    simp at he
  · intro p h hig nm e he
    rw [walkfilesSelf_file_entries] at he
    simp at he
  · intro p h hig nm cause e he
    rw [walkfilesSelf_badDir_entries] at he
    simp at he
  · intro p h hig nm cs ih e he
    rw [walkfilesSelf_dir_eq res fnm pattern errors ig p nm cs h hig] at he
    exact ih e he
  · intro p e he
    rw [walkfilesList.eq_def] at he
    simp [emptyOut] at he
  · intro p rest nm ih e he
    rw [walkfilesList.eq_def] at he
    simp only [WalkOut.entries, List.mem_append] at he
    rcases he with he | he
    · split at he
      · simp only [List.mem_singleton] at he
        exact ⟨[nm], by simp, by simpa using he⟩
      · simp at he
    · exact ih e he
  · intro p c rest pc inner e2 herr hnf ih e he
    have herr' : (walkfilesSelf res fnm pattern errors ig (p ++ [c.name]) c).err = some e2 :=
      herr
    have ih' : ∀ e ∈ (walkfilesSelf res fnm pattern errors ig (p ++ [c.name]) c).entries,
        ∃ w, w ≠ [] ∧ e = (p ++ [c.name]) ++ w := ih
    rw [walkfilesList.eq_def] at he
    rcases c with nm | ⟨nm, cs⟩ | ⟨nm, cause⟩
    · exact (hnf nm rfl).elim
    · simp only [FSTree.name] at herr' ih' he
      simp only [herr', WalkOut.entries] at he
      obtain ⟨w, hw, rfl⟩ := ih' e he
      exact ⟨nm :: w, by simp, by simp⟩
    · simp only [FSTree.name] at herr' ih' he
      simp only [herr', WalkOut.entries] at he
      obtain ⟨w, hw, rfl⟩ := ih' e he
      exact ⟨nm :: w, by simp, by simp⟩
  · intro p c rest pc inner herr hnf ih1 ih2 e he
    have herr' : (walkfilesSelf res fnm pattern errors ig (p ++ [c.name]) c).err = none :=
      herr
    have ih1' : ∀ e ∈ (walkfilesSelf res fnm pattern errors ig (p ++ [c.name]) c).entries,
        ∃ w, w ≠ [] ∧ e = (p ++ [c.name]) ++ w := ih1
    rw [walkfilesList.eq_def] at he
    rcases c with nm | ⟨nm, cs⟩ | ⟨nm, cause⟩
    · exact (hnf nm rfl).elim
    · simp only [FSTree.name] at herr' ih1' he
      simp only [herr', WalkOut.entries, List.mem_append] at he
      rcases he with he | he
      · obtain ⟨w, hw, rfl⟩ := ih1' e he
        exact ⟨nm :: w, by simp, by simp⟩
      · exact ih2 e he
    · simp only [FSTree.name] at herr' ih1' he
      simp only [herr', WalkOut.entries, List.mem_append] at he
      rcases he with he | he
      · obtain ⟨w, hw, rfl⟩ := ih1' e he
        exact ⟨nm :: w, by simp, by simp⟩
      · exact ih2 e he

theorem walkfilesSelf_entries_extend (res fnm : String → String → Bool)
    (pattern : Option String) (errors : String) (ig : IgnoreArg) (p : List String)
    (t : FSTree) :
    ∀ e ∈ (walkfilesSelf res fnm pattern errors ig p t).entries,
      ∃ w, w ≠ [] ∧ e = p ++ w := by
  intro e he
  by_cases hv : (!validErrors errors) = true
  · rw [walkfilesSelf_invalid_entries res fnm pattern errors ig p t hv] at he
    simp at he
  · by_cases hig : ignoreMatch res ig (strPath p) = true
    · rw [walkfilesSelf_ignored res fnm pattern errors ig p t hig] at he
      simp at he
    · match t with
      | .file nm => rw [walkfilesSelf_file_entries] at he; simp at he
      | .badDir nm cause => rw [walkfilesSelf_badDir_entries] at he; simp at he
      | .dir nm cs =>
        rw [walkfilesSelf_dir_eq res fnm pattern errors ig p nm cs hv hig] at he
        exact walkfilesList_entries_extend res fnm pattern errors ig p cs e he

theorem walkfilesList_no_ignored_ancestor (res fnm : String → String → Bool)
    (pattern : Option String) (errors : String) (ig : IgnoreArg) :
    ∀ (p : List String) (cs : List FSTree),
      ∀ e ∈ (walkfilesList res fnm pattern errors ig p cs).entries,
        ∀ q u, e = q ++ u → p.length < q.length →
          ignoreMatch res ig (strPath q) = false := by
  apply walkfilesList.induct res fnm pattern errors ig
    (fun p t => ∀ e ∈ (walkfilesSelf res fnm pattern errors ig p t).entries,
      ∀ q u, e = q ++ u → p.length < q.length → ignoreMatch res ig (strPath q) = false)
    (fun p cs => ∀ e ∈ (walkfilesList res fnm pattern errors ig p cs).entries,
      ∀ q u, e = q ++ u → p.length < q.length → ignoreMatch res ig (strPath q) = false)
  · intro t p h e he
    rw [walkfilesSelf_invalid_entries res fnm pattern errors ig p t h] at he
    simp at he
  · intro t p h hig e he
    rw [walkfilesSelf_ignored res fnm pattern errors ig p t hig] at he
    simp at he
  · intro p h hig nm e he
    rw [walkfilesSelf_file_entries] at he
    simp at he
  · intro p h hig nm cause e he
    rw [walkfilesSelf_badDir_entries] at he
    simp at he
  · intro p h hig nm cs ih e he
    rw [walkfilesSelf_dir_eq res fnm pattern errors ig p nm cs h hig] at he
    exact ih e he
  · intro p e he
    rw [walkfilesList.eq_def] at he
    simp [emptyOut] at he
  · intro p rest nm ih e he
    rw [walkfilesList.eq_def] at he
    simp only [WalkOut.entries, List.mem_append] at he
    rcases he with he | he
    · split at he
      · next hcond =>
        simp only [List.mem_singleton] at he
        subst he
        intro q u heq hlen
        have hlen2 : q.length + u.length = p.length + 1 := by
          have hl := congrArg List.length heq
          simpa [FSTree.name] using hl.symm
        have hu : u = [] := List.length_eq_zero.1 (by omega)
        subst hu
        have hq : q = p ++ [FSTree.name (.file nm)] := by simpa using heq.symm
        subst hq
        simp only [Bool.and_eq_true] at hcond
        simpa using hcond.2
      · simp at he
    · exact ih e he
  · intro p c rest pc inner e2 herr hnf ih e he
    have herr' : (walkfilesSelf res fnm pattern errors ig (p ++ [c.name]) c).err = some e2 :=
      herr
    have ih' : ∀ e ∈ (walkfilesSelf res fnm pattern errors ig (p ++ [c.name]) c).entries,
        ∀ q u, e = q ++ u → (p ++ [c.name]).length < q.length →
          ignoreMatch res ig (strPath q) = false := ih
    have hext := walkfilesSelf_entries_extend res fnm pattern errors ig (p ++ [c.name]) c
    have hign : ∀ h2 : ignoreMatch res ig (strPath (p ++ [c.name])) = true,
        (walkfilesSelf res fnm pattern errors ig (p ++ [c.name]) c).entries = [] :=
      fun h2 => walkfilesSelf_ignored res fnm pattern errors ig (p ++ [c.name]) c h2
    rw [walkfilesList.eq_def] at he
    rcases c with nm | ⟨nm, cs⟩ | ⟨nm, cause⟩
    · exact (hnf nm rfl).elim
    all_goals (
      simp only [FSTree.name] at herr' ih' hext hign he
      simp only [herr', WalkOut.entries] at he
      have hig2 : ignoreMatch res ig (strPath (p ++ [nm])) = false := by
        by_cases hig3 : ignoreMatch res ig (strPath (p ++ [nm])) = true
        · rw [hign hig3] at he
          simp at he
        · simpa using hig3
      obtain ⟨w, hw, hew⟩ := hext e he
      intro q u heq hlen
      rcases Nat.lt_or_ge (p.length + 1) q.length with hql | hql
      · exact ih' e he q u heq (by simp; omega)
      · have hqe : q = p ++ [nm] := by
          have hlq : q.length = p.length + 1 := by omega
          have heq2 : (p ++ [nm]) ++ w = q ++ u := by rw [← hew, heq]
          have hinj := List.append_inj heq2 (by simpa using hlq.symm)
          exact hinj.1.symm
        rw [hqe]
        exact hig2)
  · intro p c rest pc inner herr hnf ih1 ih2 e he
    have herr' : (walkfilesSelf res fnm pattern errors ig (p ++ [c.name]) c).err = none :=
      herr
    have ih1' : ∀ e ∈ (walkfilesSelf res fnm pattern errors ig (p ++ [c.name]) c).entries,
        ∀ q u, e = q ++ u → (p ++ [c.name]).length < q.length →
          ignoreMatch res ig (strPath q) = false := ih1
    have hext := walkfilesSelf_entries_extend res fnm pattern errors ig (p ++ [c.name]) c
    have hign : ∀ h2 : ignoreMatch res ig (strPath (p ++ [c.name])) = true,
        (walkfilesSelf res fnm pattern errors ig (p ++ [c.name]) c).entries = [] :=
      fun h2 => walkfilesSelf_ignored res fnm pattern errors ig (p ++ [c.name]) c h2
    rw [walkfilesList.eq_def] at he
    rcases c with nm | ⟨nm, cs⟩ | ⟨nm, cause⟩
    · exact (hnf nm rfl).elim
    all_goals (
      simp only [FSTree.name] at herr' ih1' hext hign he
      simp only [herr', WalkOut.entries, List.mem_append] at he
      rcases he with he | he
      · have hig2 : ignoreMatch res ig (strPath (p ++ [nm])) = false := by
          by_cases hig3 : ignoreMatch res ig (strPath (p ++ [nm])) = true
          · rw [hign hig3] at he
            simp at he
          · simpa using hig3
        obtain ⟨w, hw, hew⟩ := hext e he
        intro q u heq hlen
        rcases Nat.lt_or_ge (p.length + 1) q.length with hql | hql
        · exact ih1' e he q u heq (by simp; omega)
        · have hqe : q = p ++ [nm] := by
            have hlq : q.length = p.length + 1 := by omega
            have heq2 : (p ++ [nm]) ++ w = q ++ u := by rw [← hew, heq]
            have hinj := List.append_inj heq2 (by simpa using hlq.symm)
            exact hinj.1.symm
          rw [hqe]
          exact hig2
      · exact ih2 e he)

theorem walkfilesSelf_no_ignored_ancestor (res fnm : String → String → Bool)
    (pattern : Option String) (errors : String) (ig : IgnoreArg) (p : List String)
    (t : FSTree) :
    ∀ e ∈ (walkfilesSelf res fnm pattern errors ig p t).entries,
      ∀ q u, e = q ++ u → p.length < q.length →
        ignoreMatch res ig (strPath q) = false := by
  intro e he
  by_cases hv : (!validErrors errors) = true
  · rw [walkfilesSelf_invalid_entries res fnm pattern errors ig p t hv] at he
    simp at he
  · by_cases hig : ignoreMatch res ig (strPath p) = true
    · rw [walkfilesSelf_ignored res fnm pattern errors ig p t hig] at he
      simp at he
    · match t with
      | .file nm => rw [walkfilesSelf_file_entries] at he; simp at he
      | .badDir nm cause => rw [walkfilesSelf_badDir_entries] at he; simp at he
      | .dir nm cs =>
        rw [walkfilesSelf_dir_eq res fnm pattern errors ig p nm cs hv hig] at he
        exact walkfilesList_no_ignored_ancestor res fnm pattern errors ig p cs e he

/-- C2 counterexample (mode All): `walk` accepts no exclude patterns, so
with an exclusion set whose pattern matches directory `X`, the All-mode
traversal still yields `X` and the entries below it. -/
theorem allmode_exclusion_counterexample :
    ignoreMatch substrSearch (.listArg ["X"]) (strPath ["r", "X"]) = true ∧
    ["r", "X"] ∈ (walkSelf (fun nm pat => nm = pat) none "strict" ["r"]
      (.dir "r" [.dir "X" [.file "f"]])).entries ∧
    ["r", "X", "f"] ∈ (walkSelf (fun nm pat => nm = pat) none "strict" ["r"]
      (.dir "r" [.dir "X" [.file "f"]])).entries := by
  refine ⟨by decide, by decide, by decide⟩

/-- C2 amended: for the two modes that take exclude patterns —
DirsOnly (`walkdirs`) and FilesOnly (`walkfiles`) — exclusion prunes
whole subtrees: for every yielded entry, no point on its path strictly
below the root (the entry itself included) matches the exclusion
patterns, for every matcher, name pattern, error mode and tree.  Hence
when a directory X matches, neither X nor anything below it is yielded,
and the recursion into X stops at its ignore check. -/
theorem exclusion_prunes_subtrees :
    (∀ (res fnm : String → String → Bool) (pattern : Option String) (errors : String)
      (ig : IgnoreArg) (p : List String) (t : FSTree),
      ∀ e ∈ (walkdirsSelf res fnm pattern errors ig p t).entries,
        ∀ q u, e = q ++ u → p.length < q.length →
          ignoreMatch res ig (strPath q) = false) ∧
    (∀ (res fnm : String → String → Bool) (pattern : Option String) (errors : String)
      (ig : IgnoreArg) (p : List String) (t : FSTree),
      ∀ e ∈ (walkfilesSelf res fnm pattern errors ig p t).entries,
        ∀ q u, e = q ++ u → p.length < q.length →
          ignoreMatch res ig (strPath q) = false) :=
  ⟨fun res fnm pattern errors ig p t => walkdirsSelf_no_ignored_ancestor res fnm pattern
      errors ig p t,
   fun res fnm pattern errors ig p t => walkfilesSelf_no_ignored_ancestor res fnm pattern
      errors ig p t⟩

/-- Witness: on a concrete tree, the ancestors of a yielded entry are
certified unexcluded by the pruning theorem. -/
theorem exclusion_prunes_subtrees_witness :
    ignoreMatch substrSearch (.listArg ["Z"]) (strPath ["r", "a"]) = false ∧
    ignoreMatch substrSearch (.listArg ["Z"]) (strPath ["r", "a", "b"]) = false :=
  ⟨exclusion_prunes_subtrees.1 substrSearch (fun nm pat => nm = pat) none "strict"
      (.listArg ["Z"]) ["r"] (.dir "r" [.dir "a" [.dir "b" []]])
      ["r", "a", "b"] (by decide) ["r", "a"] ["b"] rfl (by decide),
   exclusion_prunes_subtrees.2 substrSearch (fun nm pat => nm = pat) none "strict"
      (.listArg ["Z"]) ["r"] (.dir "r" [.dir "a" [.dir "b" [.file "f"]]])
      ["r", "a", "b", "f"] (by decide) ["r", "a", "b"] ["f"] rfl (by decide)⟩

/-! ### Pre-order invariant of walk -/

/-- No string occurs twice. -/
def distinctNames : List String → Bool
  | [] => true
  | x :: xs => !(xs.contains x) && distinctNames xs

mutual

/-- Sibling names are distinct at every level of the tree — the
filesystem invariant under which entries are identified by their
paths. -/
def uniqNames : FSTree → Bool
  | .file _ => true
  | .badDir _ _ => true
  | .dir _ cs => distinctNames (cs.map FSTree.name) && uniqList cs

def uniqList : List FSTree → Bool
  | [] => true
  | c :: rest => uniqNames c && uniqList rest

end

theorem walkSelf_invalid_entries (fnm : String → String → Bool) (pattern : Option String)
    (errors : String) (p : List String) (t : FSTree) (h : (!validErrors errors) = true) :
    walkSelf fnm pattern errors p t = ⟨[], [], some .invalidErrors⟩ := by
  rw [walkSelf.eq_def, if_pos h]

theorem walkSelf_file_eq (fnm : String → String → Bool) (pattern : Option String)
    (errors : String) (p : List String) (nm : String) :
    (walkSelf fnm pattern errors p (.file nm)).entries = [] := by
  rw [walkSelf.eq_def]
  split <;> rfl

theorem walkSelf_badDir_entries (fnm : String → String → Bool) (pattern : Option String)
    (errors : String) (p : List String) (nm cause : String) :
    (walkSelf fnm pattern errors p (.badDir nm cause)).entries = [] := by
  rw [walkSelf.eq_def]
  split
  · rfl
  · exact faultOut_entries errors p cause

theorem walkSelf_dir_eq (fnm : String → String → Bool) (pattern : Option String)
    (errors : String) (p : List String) (nm : String) (cs : List FSTree)
    (h : ¬ (!validErrors errors) = true) :
    walkSelf fnm pattern errors p (.dir nm cs) = walkList fnm pattern errors p cs := by
  rw [walkSelf.eq_def, if_neg h]

/-- Every entry yielded while looping over `cs` extends the base path by
the name of one of the children. -/
theorem walkList_entries_shape (fnm : String → String → Bool) (pattern : Option String)
    (errors : String) :
    ∀ (p : List String) (cs : List FSTree),
      ∀ e ∈ (walkList fnm pattern errors p cs).entries,
        ∃ n s, n ∈ cs.map FSTree.name ∧ e = p ++ n :: s := by
  apply walkList.induct fnm pattern errors
    (fun p t => ∀ e ∈ (walkSelf fnm pattern errors p t).entries,
      ∃ w, w ≠ [] ∧ e = p ++ w)
    (fun p cs => ∀ e ∈ (walkList fnm pattern errors p cs).entries,
      ∃ n s, n ∈ cs.map FSTree.name ∧ e = p ++ n :: s)
  · intro t p h e he
    rw [walkSelf_invalid_entries fnm pattern errors p t h] at he
    simp at he
  · intro p h nm e he
    rw [walkSelf_file_eq] at he
    simp at he
  · intro p h nm cause e he
    rw [walkSelf_badDir_entries] at he
    simp at he
  · intro p h nm cs ih e he
    rw [walkSelf_dir_eq fnm pattern errors p nm cs h] at he
    obtain ⟨n, s, _, rfl⟩ := ih e he
    exact ⟨n :: s, by simp, rfl⟩
  · intro p e he
    rw [walkList.eq_def] at he
    simp [emptyOut] at he
  · intro p c rest pc inner e2 herr ih e he
    have ih' : ∀ e ∈ ((if c.isDir then walkSelf fnm pattern errors (p ++ [c.name]) c
        else emptyOut)).entries, ∃ w, w ≠ [] ∧ e = (p ++ [c.name]) ++ w := by
      cases hd : c.isDir
      · intro e he2
        simp [emptyOut] at he2
      · exact ih
    have herr' : ((if c.isDir then walkSelf fnm pattern errors (p ++ [c.name]) c
        else emptyOut)).err = some e2 := herr
    rw [walkList.eq_def] at he
    simp only [herr'] at he
    simp only [WalkOut.entries, List.mem_append] at he
    rcases he with he | he
    · split at he
      · simp only [List.mem_singleton] at he
        exact ⟨c.name, [], by simp, by simpa using he⟩
      · simp at he
    · obtain ⟨w, hw, rfl⟩ := ih' e he
      exact ⟨c.name, w, by simp, by simp⟩
  · intro p c rest pc inner herr ih1 ih2 e he
    have ih1' : ∀ e ∈ ((if c.isDir then walkSelf fnm pattern errors (p ++ [c.name]) c
        else emptyOut)).entries, ∃ w, w ≠ [] ∧ e = (p ++ [c.name]) ++ w := by
      cases hd : c.isDir
      · intro e he2
        simp [emptyOut] at he2
      · exact ih1
    have herr' : ((if c.isDir then walkSelf fnm pattern errors (p ++ [c.name]) c
        else emptyOut)).err = none := herr
    rw [walkList.eq_def] at he
    simp only [herr'] at he
    simp only [WalkOut.entries, List.mem_append] at he
    rcases he with (he | he) | he
    · split at he
      · simp only [List.mem_singleton] at he
        exact ⟨c.name, [], by simp, by simpa using he⟩
      · simp at he
    · obtain ⟨w, hw, rfl⟩ := ih1' e he
      exact ⟨c.name, w, by simp, by simp⟩
    · obtain ⟨n, s, hn, rfl⟩ := ih2 e he
      exact ⟨n, s, by simp [hn], rfl⟩

theorem walkSelf_entries_extend (fnm : String → String → Bool) (pattern : Option String)
    (errors : String) (p : List String) (t : FSTree) :
    ∀ e ∈ (walkSelf fnm pattern errors p t).entries, ∃ w, w ≠ [] ∧ e = p ++ w := by
  intro e he
  by_cases hv : (!validErrors errors) = true
  · rw [walkSelf_invalid_entries fnm pattern errors p t hv] at he
    simp at he
  · match t with
    | .file nm => rw [walkSelf_file_eq] at he; simp at he
    | .badDir nm cause => rw [walkSelf_badDir_entries] at he; simp at he
    | .dir nm cs =>
      rw [walkSelf_dir_eq fnm pattern errors p nm cs hv] at he
      obtain ⟨n, s, _, rfl⟩ := walkList_entries_shape fnm pattern errors p cs e he
      exact ⟨n :: s, by simp, rfl⟩

/-- An entry never yields after one of its own ancestors… stated as a
pairwise relation: a later entry is never a strict initial segment of an
earlier one. -/
theorem walkList_preorder (fnm : String → String → Bool) (pattern : Option String)
    (errors : String) :
    ∀ (p : List String) (cs : List FSTree),
      (distinctNames (cs.map FSTree.name) && uniqList cs) = true →
      (walkList fnm pattern errors p cs).entries.Pairwise
        (fun a b => (∃ u, a = b ++ u) → a = b) := by
  apply walkList.induct fnm pattern errors
    (fun p t => uniqNames t = true →
      (walkSelf fnm pattern errors p t).entries.Pairwise
        (fun a b => (∃ u, a = b ++ u) → a = b))
    (fun p cs => (distinctNames (cs.map FSTree.name) && uniqList cs) = true →
      (walkList fnm pattern errors p cs).entries.Pairwise
        (fun a b => (∃ u, a = b ++ u) → a = b))
  · intro t p h _
    rw [walkSelf_invalid_entries fnm pattern errors p t h]
    exact List.Pairwise.nil
  · intro p h nm _
    have := walkSelf_file_eq fnm pattern errors p nm
    rw [this]
    exact List.Pairwise.nil
  · intro p h nm cause _
    have := walkSelf_badDir_entries fnm pattern errors p nm cause
    rw [this]
    exact List.Pairwise.nil
  · intro p h nm cs ih hu
    rw [walkSelf_dir_eq fnm pattern errors p nm cs h]
    rw [uniqNames] at hu
    exact ih hu
  · intro p _
    rw [walkList.eq_def]
    exact List.Pairwise.nil
  · intro p c rest pc inner e2 herr ih hu
    simp only [distinctNames, uniqList, List.map_cons, Bool.and_eq_true,
      Bool.not_eq_true'] at hu
    obtain ⟨⟨hndup, hdrest⟩, huc, hurest⟩ := hu
    have herr' : ((if c.isDir then walkSelf fnm pattern errors (p ++ [c.name]) c
        else emptyOut)).err = some e2 := herr
    have hpwi : ((if c.isDir then walkSelf fnm pattern errors (p ++ [c.name]) c
        else emptyOut)).entries.Pairwise (fun a b => (∃ u, a = b ++ u) → a = b) := by
      cases hd : c.isDir
      · exact List.Pairwise.nil
      · exact ih huc
    have hext : ∀ e ∈ ((if c.isDir then walkSelf fnm pattern errors (p ++ [c.name]) c
        else emptyOut)).entries, ∃ w, w ≠ [] ∧ e = (p ++ [c.name]) ++ w := by
      cases hd : c.isDir
      · intro e he
        simp [emptyOut] at he
      · exact walkSelf_entries_extend fnm pattern errors (p ++ [c.name]) c
    rw [walkList.eq_def]
    simp only [herr']
    rw [List.pairwise_append]
    refine ⟨?_, hpwi, ?_⟩
    · split <;> simp
    · intro a ha b hb
      split at ha
      · simp only [List.mem_singleton] at ha
        subst ha
        obtain ⟨w, hw, rfl⟩ := hext b hb
        rintro ⟨u, hab⟩
        rw [List.append_assoc] at hab
        have h0 : w = [] ∧ u = [] := by simpa using hab
        exact absurd h0.1 hw
      · simp at ha
  · intro p c rest pc inner herr ih1 ih2 hu
    simp only [distinctNames, uniqList, List.map_cons, Bool.and_eq_true,
      Bool.not_eq_true'] at hu
    obtain ⟨⟨hndup, hdrest⟩, huc, hurest⟩ := hu
    have herr' : ((if c.isDir then walkSelf fnm pattern errors (p ++ [c.name]) c
        else emptyOut)).err = none := herr
    have hpwi : ((if c.isDir then walkSelf fnm pattern errors (p ++ [c.name]) c
        else emptyOut)).entries.Pairwise (fun a b => (∃ u, a = b ++ u) → a = b) := by
      cases hd : c.isDir
      · exact List.Pairwise.nil
      · exact ih1 huc
    have hext : ∀ e ∈ ((if c.isDir then walkSelf fnm pattern errors (p ++ [c.name]) c
        else emptyOut)).entries, ∃ w, w ≠ [] ∧ e = (p ++ [c.name]) ++ w := by
      cases hd : c.isDir
      · intro e he
        simp [emptyOut] at he
      · exact walkSelf_entries_extend fnm pattern errors (p ++ [c.name]) c
    have htl := ih2 (by simp [Bool.and_eq_true, hdrest, hurest])
    have htlshape := walkList_entries_shape fnm pattern errors p rest
    rw [walkList.eq_def]
    simp only [herr']
    rw [show ∀ (y a b : List (List String)), y ++ a ++ b = y ++ (a ++ b) from
      fun y a b => by simp, List.pairwise_append]
    refine ⟨?_, ?_, ?_⟩
    · split <;> simp
    · rw [List.pairwise_append]
      refine ⟨hpwi, htl, ?_⟩
      -- inner entries never extend by a tail entry
      intro a ha b hb
      obtain ⟨w, hw, rfl⟩ := hext a ha
      obtain ⟨n, s, hn, rfl⟩ := htlshape b hb
      rintro ⟨u, hab⟩
      rw [List.append_assoc, List.append_assoc] at hab
      have hcan := List.append_cancel_left hab
      simp only [List.singleton_append, List.cons_append] at hcan
      have hcn : c.name = n := by
        have := congrArg (fun l => List.head? l) hcan
        simpa using this
      exact absurd (hcn ▸ hn) (by simpa using hndup)
    · intro a ha b hb
      split at ha
      · simp only [List.mem_singleton] at ha
        subst ha
        simp only [List.mem_append] at hb
        rcases hb with hb | hb
        · obtain ⟨w, hw, rfl⟩ := hext b hb
          rintro ⟨u, hab⟩
          rw [List.append_assoc] at hab
          have h0 : w = [] ∧ u = [] := by simpa using hab
          exact absurd h0.1 hw
        · obtain ⟨n, s, hn, rfl⟩ := htlshape b hb
          rintro ⟨u, hab⟩
          rw [List.append_assoc] at hab
          have hcan := List.append_cancel_left hab
          simp only [List.singleton_append, List.cons_append] at hcan
          have hcn : c.name = n := by
            have := congrArg (fun l => List.head? l) hcan
            simpa using this
          exact absurd (hcn ▸ hn) (by simpa using hndup)
      · simp at ha

/-- C3: under distinct sibling names, every walk run is pre-ordered:
no yielded entry is a strict initial path segment of an earlier yielded
entry, so every directory entry appears strictly before each of its own
yielded descendants (direct children of the root included). -/
theorem walk_preorder_invariant (fnm : String → String → Bool) (pattern : Option String)
    (errors : String) (p : List String) (t : FSTree) (h : uniqNames t = true) :
    (walkSelf fnm pattern errors p t).entries.Pairwise
      (fun a b => (∃ u, a = b ++ u) → a = b) := by
  by_cases hv : (!validErrors errors) = true
  · rw [walkSelf_invalid_entries fnm pattern errors p t hv]
    exact List.Pairwise.nil
  · match t with
    | .file nm =>
      rw [walkSelf_file_eq fnm pattern errors p nm]
      exact List.Pairwise.nil
    | .badDir nm cause =>
      rw [walkSelf_badDir_entries fnm pattern errors p nm cause]
      exact List.Pairwise.nil
    | .dir nm cs =>
      rw [walkSelf_dir_eq fnm pattern errors p nm cs hv]
      rw [uniqNames] at h
      exact walkList_preorder fnm pattern errors p cs h

/-- Witness: the pre-order invariant at a concrete two-level tree. -/
theorem walk_preorder_invariant_witness :
    (walkSelf (fun nm pat => nm = pat) none "strict" ["r"]
      (.dir "r" [.dir "a" [.file "x", .dir "b" [.file "y"]], .file "z"])).entries.Pairwise
      (fun a b => (∃ u, a = b ++ u) → a = b) :=
  walk_preorder_invariant (fun nm pat => nm = pat) none "strict" ["r"]
    (.dir "r" [.dir "a" [.file "x", .dir "b" [.file "y"]], .file "z"]) (by decide)

/-! ### Warn mode: one diagnostic per faulting subtree -/

mutual

/-- No `badDir` anywhere in the tree: every listing succeeds. -/
def noBad : FSTree → Bool
  | .file _ => true
  | .badDir _ _ => false
  | .dir _ cs => noBadList cs

def noBadList : List FSTree → Bool
  | [] => true
  | c :: rest => noBad c && noBadList rest

end

theorem walkList_warn_err_none (fnm : String → String → Bool) (pattern : Option String) :
    ∀ (p : List String) (cs : List FSTree),
      (walkList fnm pattern "warn" p cs).err = none := by
  have hval : ¬ (!validErrors "warn") = true := by decide
  apply walkList.induct fnm pattern "warn"
    (fun p t => (walkSelf fnm pattern "warn" p t).err = none)
    (fun p cs => (walkList fnm pattern "warn" p cs).err = none)
  · intro t p h
    exact absurd h hval
  · intro p _ nm
    rw [walkSelf.eq_def, if_neg hval]
    rfl
  · intro p _ nm cause
    rw [walkSelf.eq_def, if_neg hval]
    rfl
  · intro p _ nm cs ih
    rw [walkSelf_dir_eq fnm pattern "warn" p nm cs hval]
    exact ih
  · intro p
    rfl
  · intro p c rest pc inner e2 herr ih
    have herr' : ((if c.isDir then walkSelf fnm pattern "warn" (p ++ [c.name]) c
        else emptyOut)).err = some e2 := herr
    have hn : ((if c.isDir then walkSelf fnm pattern "warn" (p ++ [c.name]) c
        else emptyOut)).err = none := by
      cases hd : c.isDir
      · rfl
      · exact ih
    rw [hn] at herr'
    exact Option.noConfusion herr'
  · intro p c rest pc inner herr ih1 ih2
    have herr' : ((if c.isDir then walkSelf fnm pattern "warn" (p ++ [c.name]) c
        else emptyOut)).err = none := herr
    rw [walkList.eq_def]
    simp only [herr']
    exact ih2

theorem walkSelf_warn_err_none (fnm : String → String → Bool) (pattern : Option String) :
    ∀ (p : List String) (t : FSTree), (walkSelf fnm pattern "warn" p t).err = none := by
  have hval : ¬ (!validErrors "warn") = true := by decide
  intro p t
  match t with
  | .file nm => rw [walkSelf.eq_def, if_neg hval]; rfl
  | .badDir nm cause => rw [walkSelf.eq_def, if_neg hval]; rfl
  | .dir nm cs =>
    rw [walkSelf_dir_eq fnm pattern "warn" p nm cs hval]
    exact walkList_warn_err_none fnm pattern p cs

/-- The head equation of the warn-mode loop: in warn mode the child
contribution never aborts, so the outcome splices child and tail. -/
theorem walkList_warn_cons (fnm : String → String → Bool) (pattern : Option String)
    (p : List String) (c : FSTree) (rest : List FSTree) :
    walkList fnm pattern "warn" p (c :: rest) =
      ⟨(if patOk fnm pattern c.name then [p ++ [c.name]] else []) ++
        ((if c.isDir then walkSelf fnm pattern "warn" (p ++ [c.name]) c
          else emptyOut)).entries ++
        (walkList fnm pattern "warn" p rest).entries,
       ((if c.isDir then walkSelf fnm pattern "warn" (p ++ [c.name]) c
          else emptyOut)).warns ++ (walkList fnm pattern "warn" p rest).warns,
       (walkList fnm pattern "warn" p rest).err⟩ := by
  have hn : ((if c.isDir then walkSelf fnm pattern "warn" (p ++ [c.name]) c
      else emptyOut)).err = none := by
    cases hd : c.isDir
    · rfl
    · exact walkSelf_warn_err_none fnm pattern (p ++ [c.name]) c
  rw [walkList.eq_def]
  simp only [hn]

/-- Splicing of a warn-mode loop over a concatenation of child lists. -/
theorem walkList_warn_append (fnm : String → String → Bool) (pattern : Option String)
    (p : List String) :
    ∀ (cs1 cs2 : List FSTree),
      walkList fnm pattern "warn" p (cs1 ++ cs2) =
        ⟨(walkList fnm pattern "warn" p cs1).entries ++
          (walkList fnm pattern "warn" p cs2).entries,
         (walkList fnm pattern "warn" p cs1).warns ++
          (walkList fnm pattern "warn" p cs2).warns,
         (walkList fnm pattern "warn" p cs2).err⟩ := by
  intro cs1 cs2
  induction cs1 with
  | nil => rfl
  | cons c cs1' ih =>
    rw [List.cons_append, walkList_warn_cons, ih, walkList_warn_cons]
    simp

theorem walkSelf_warn_badDir (fnm : String → String → Bool) (pattern : Option String)
    (p : List String) (nm cause : String) :
    walkSelf fnm pattern "warn" p (.badDir nm cause) = ⟨[], [(p, cause)], none⟩ := by
  rw [walkSelf.eq_def, if_neg (by decide)]
  rfl

theorem walkSelf_warn_dirnil (fnm : String → String → Bool) (pattern : Option String)
    (p : List String) (nm : String) :
    walkSelf fnm pattern "warn" p (.dir nm []) = emptyOut := by
  rw [walkSelf_dir_eq fnm pattern "warn" p nm [] (by decide)]
  rfl

theorem walkList_warn_noBad (fnm : String → String → Bool) (pattern : Option String) :
    ∀ (p : List String) (cs : List FSTree), noBadList cs = true →
      (walkList fnm pattern "warn" p cs).warns = [] := by
  have hval : ¬ (!validErrors "warn") = true := by decide
  apply walkList.induct fnm pattern "warn"
    (fun p t => noBad t = true → (walkSelf fnm pattern "warn" p t).warns = [])
    (fun p cs => noBadList cs = true → (walkList fnm pattern "warn" p cs).warns = [])
  · intro t p h
    exact absurd h hval
  · intro p _ nm _
    rw [walkSelf.eq_def, if_neg hval]
    rfl
  · intro p _ nm cause hb
    exact absurd hb (by simp [noBad])
  · intro p _ nm cs ih hb
    rw [walkSelf_dir_eq fnm pattern "warn" p nm cs hval]
    rw [noBad] at hb
    exact ih hb
  · intro p _
    rfl
  · intro p c rest pc inner e2 herr ih _
    have herr' : ((if c.isDir then walkSelf fnm pattern "warn" (p ++ [c.name]) c
        else emptyOut)).err = some e2 := herr
    have hn : ((if c.isDir then walkSelf fnm pattern "warn" (p ++ [c.name]) c
        else emptyOut)).err = none := by
      cases hd : c.isDir
      · rfl
      · exact walkSelf_warn_err_none fnm pattern (p ++ [c.name]) c
    rw [hn] at herr'
    exact Option.noConfusion herr'
  · intro p c rest pc inner herr ih1 ih2 hb
    simp only [noBadList, Bool.and_eq_true] at hb
    obtain ⟨hbc, hbrest⟩ := hb
    rw [walkList_warn_cons]
    have hw1 : ((if c.isDir then walkSelf fnm pattern "warn" (p ++ [c.name]) c
        else emptyOut)).warns = [] := by
      cases hd : c.isDir
      · rfl
      · exact ih1 hbc
    simp [hw1, ih2 hbrest]

/-- Under warn mode, one faulting subtree in walk produces exactly one
diagnostic, carrying the faulting path and cause; the subtree
contributes nothing — the entries equal those of the same tree with the
faulting directory's listing replaced by an empty one — so every
sibling entry is still yielded, and the traversal does not abort. -/
theorem walk_warn_single_diagnostic (fnm : String → String → Bool)
    (pattern : Option String) (p : List String) (rn nm cause : String)
    (pre post : List FSTree) (h1 : noBadList pre = true) (h2 : noBadList post = true) :
    walkSelf fnm pattern "warn" p (.dir rn (pre ++ .badDir nm cause :: post)) =
      ⟨(walkSelf fnm pattern "warn" p (.dir rn (pre ++ .dir nm [] :: post))).entries,
       [(p ++ [nm], cause)], none⟩ := by
  have hval : ¬ (!validErrors "warn") = true := by decide
  rw [walkSelf_dir_eq fnm pattern "warn" p rn (pre ++ .badDir nm cause :: post) hval,
    walkSelf_dir_eq fnm pattern "warn" p rn (pre ++ .dir nm [] :: post) hval,
    walkList_warn_append, walkList_warn_append, walkList_warn_cons, walkList_warn_cons]
  simp only [FSTree.isDir, FSTree.name, if_true,
    walkSelf_warn_badDir fnm pattern (p ++ [nm]) nm cause,
    walkSelf_warn_dirnil fnm pattern (p ++ [nm]) nm]
  rw [walkList_warn_noBad fnm pattern p pre h1, walkList_warn_noBad fnm pattern p post h2]
  simp [emptyOut, walkList_warn_err_none fnm pattern p post]

theorem walkdirsList_warn_err_none (res fnm : String → String → Bool)
    (pattern : Option String) (ig : IgnoreArg) :
    ∀ (p : List String) (cs : List FSTree),
      (walkdirsList res fnm pattern "warn" ig p cs).err = none := by
  have hval : ¬ (!validErrors "warn") = true := by decide
  apply walkdirsList.induct res fnm pattern "warn" ig
    (fun p t => (walkdirsSelf res fnm pattern "warn" ig p t).err = none)
    (fun p cs => (walkdirsList res fnm pattern "warn" ig p cs).err = none)
  · intro t p h
    exact absurd h hval
  · intro t p h hig
    rw [walkdirsSelf.eq_def, if_neg hval, if_pos hig]
    rfl
  · intro p h hig nm
    rw [walkdirsSelf.eq_def, if_neg hval, if_neg hig]
    rfl
  · intro p h hig nm cause
    rw [walkdirsSelf.eq_def, if_neg hval, if_neg hig]
    rfl
  · intro p h hig nm cs ih
    rw [walkdirsSelf_dir_eq res fnm pattern "warn" ig p nm cs hval hig]
    exact ih
  · intro p
    rfl
  · intro p c rest hd pc inner e2 herr ih
    have herr' : (walkdirsSelf res fnm pattern "warn" ig (p ++ [c.name]) c).err = some e2 :=
      herr
    rw [ih] at herr'
    exact Option.noConfusion herr'
  · intro p c rest hd pc inner herr ih1 ih2
    have herr' : (walkdirsSelf res fnm pattern "warn" ig (p ++ [c.name]) c).err = none :=
      herr
    rw [walkdirsList.eq_def]
    simp only [if_pos hd, herr']
    exact ih2
  · intro p c rest hd ih
    rw [walkdirsList.eq_def]
    simp only [if_neg hd]
    exact ih

theorem walkdirsSelf_warn_err_none (res fnm : String → String → Bool)
    (pattern : Option String) (ig : IgnoreArg) (p : List String) (t : FSTree) :
    (walkdirsSelf res fnm pattern "warn" ig p t).err = none := by
  have hval : ¬ (!validErrors "warn") = true := by decide
  by_cases hig : ignoreMatch res ig (strPath p) = true
  · rw [walkdirsSelf.eq_def, if_neg hval, if_pos hig]
    rfl
  · match t with
    | .file nm => rw [walkdirsSelf.eq_def, if_neg hval, if_neg hig]; rfl
    | .badDir nm cause => rw [walkdirsSelf.eq_def, if_neg hval, if_neg hig]; rfl
    | .dir nm cs =>
      rw [walkdirsSelf_dir_eq res fnm pattern "warn" ig p nm cs hval hig]
      exact walkdirsList_warn_err_none res fnm pattern ig p cs

theorem walkdirsList_warn_cons_dir (res fnm : String → String → Bool)
    (pattern : Option String) (ig : IgnoreArg) (p : List String) (c : FSTree)
    (rest : List FSTree) (hd : c.isDir = true) :
    walkdirsList res fnm pattern "warn" ig p (c :: rest) =
      ⟨(if patOk fnm pattern c.name && !ignoreMatch res ig (strPath (p ++ [c.name]))
          then [p ++ [c.name]] else []) ++
        (walkdirsSelf res fnm pattern "warn" ig (p ++ [c.name]) c).entries ++
        (walkdirsList res fnm pattern "warn" ig p rest).entries,
       (walkdirsSelf res fnm pattern "warn" ig (p ++ [c.name]) c).warns ++
        (walkdirsList res fnm pattern "warn" ig p rest).warns,
       (walkdirsList res fnm pattern "warn" ig p rest).err⟩ := by
  rw [walkdirsList.eq_def]
  simp only [if_pos hd, walkdirsSelf_warn_err_none res fnm pattern ig (p ++ [c.name]) c]

theorem walkdirsList_cons_skip (res fnm : String → String → Bool)
    (pattern : Option String) (errors : String) (ig : IgnoreArg) (p : List String)
    (c : FSTree) (rest : List FSTree) (hd : ¬ c.isDir = true) :
    walkdirsList res fnm pattern errors ig p (c :: rest) =
      walkdirsList res fnm pattern errors ig p rest := by
  rw [walkdirsList.eq_def]
  simp only [if_neg hd]

theorem walkdirsList_warn_append (res fnm : String → String → Bool)
    (pattern : Option String) (ig : IgnoreArg) (p : List String) :
    ∀ (cs1 cs2 : List FSTree),
      walkdirsList res fnm pattern "warn" ig p (cs1 ++ cs2) =
        ⟨(walkdirsList res fnm pattern "warn" ig p cs1).entries ++
          (walkdirsList res fnm pattern "warn" ig p cs2).entries,
         (walkdirsList res fnm pattern "warn" ig p cs1).warns ++
          (walkdirsList res fnm pattern "warn" ig p cs2).warns,
         (walkdirsList res fnm pattern "warn" ig p cs2).err⟩ := by
  intro cs1 cs2
  induction cs1 with
  | nil => rfl
  | cons c cs1' ih =>
    by_cases hd : c.isDir = true
    · rw [List.cons_append, walkdirsList_warn_cons_dir res fnm pattern ig p c (cs1' ++ cs2) hd,
        ih, walkdirsList_warn_cons_dir res fnm pattern ig p c cs1' hd]
      simp
    · rw [List.cons_append, walkdirsList_cons_skip res fnm pattern "warn" ig p c
        (cs1' ++ cs2) hd, ih, walkdirsList_cons_skip res fnm pattern "warn" ig p c cs1' hd]

theorem walkdirsSelf_warn_badDir (res fnm : String → String → Bool)
    (pattern : Option String) (p : List String) (nm cause : String) :
    walkdirsSelf res fnm pattern "warn" .noneArg p (.badDir nm cause) =
      ⟨[], [(p, cause)], none⟩ := by
  rw [walkdirsSelf.eq_def, if_neg (by decide), if_neg (by simp [ignoreMatch])]
  rfl

theorem walkdirsSelf_warn_dirnil (res fnm : String → String → Bool)
    (pattern : Option String) (p : List String) (nm : String) :
    walkdirsSelf res fnm pattern "warn" .noneArg p (.dir nm []) = emptyOut := by
  rw [walkdirsSelf_dir_eq res fnm pattern "warn" .noneArg p nm [] (by decide)
    (by simp [ignoreMatch])]
  rfl

theorem walkdirsList_warn_noBad (res fnm : String → String → Bool)
    (pattern : Option String) (ig : IgnoreArg) :
    ∀ (p : List String) (cs : List FSTree), noBadList cs = true →
      (walkdirsList res fnm pattern "warn" ig p cs).warns = [] := by
  have hval : ¬ (!validErrors "warn") = true := by decide
  apply walkdirsList.induct res fnm pattern "warn" ig
    (fun p t => noBad t = true → (walkdirsSelf res fnm pattern "warn" ig p t).warns = [])
    (fun p cs => noBadList cs = true → (walkdirsList res fnm pattern "warn" ig p cs).warns = [])
  · intro t p h
    exact absurd h hval
  · intro t p h hig _
    rw [walkdirsSelf.eq_def, if_neg hval, if_pos hig]
    rfl
  · intro p h hig nm _
    rw [walkdirsSelf.eq_def, if_neg hval, if_neg hig]
    rfl
  · intro p h hig nm cause hb
    exact absurd hb (by simp [noBad])
  · intro p h hig nm cs ih hb
    rw [walkdirsSelf_dir_eq res fnm pattern "warn" ig p nm cs hval hig]
    rw [noBad] at hb
    exact ih hb
  · intro p _
    rfl
  · intro p c rest hd pc inner e2 herr ih _
    have herr' : (walkdirsSelf res fnm pattern "warn" ig (p ++ [c.name]) c).err = some e2 :=
      herr
    rw [walkdirsSelf_warn_err_none res fnm pattern ig (p ++ [c.name]) c] at herr'
    exact Option.noConfusion herr'
  · intro p c rest hd pc inner herr ih1 ih2 hb
    simp only [noBadList, Bool.and_eq_true] at hb
    obtain ⟨hbc, hbrest⟩ := hb
    rw [walkdirsList_warn_cons_dir res fnm pattern ig p c rest hd]
    simp [ih1 hbc, ih2 hbrest]
  · intro p c rest hd ih hb
    simp only [noBadList, Bool.and_eq_true] at hb
    rw [walkdirsList_cons_skip res fnm pattern "warn" ig p c rest hd]
    exact ih hb.2

/-- The same single-diagnostic guarantee for the DirsOnly traversal
with its default ignore argument. -/
theorem walkdirs_warn_single_diagnostic (res fnm : String → String → Bool)
    (pattern : Option String) (p : List String) (rn nm cause : String)
    (pre post : List FSTree) (h1 : noBadList pre = true) (h2 : noBadList post = true) :
    walkdirsSelf res fnm pattern "warn" .noneArg p
        (.dir rn (pre ++ .badDir nm cause :: post)) =
      ⟨(walkdirsSelf res fnm pattern "warn" .noneArg p
          (.dir rn (pre ++ .dir nm [] :: post))).entries,
       [(p ++ [nm], cause)], none⟩ := by
  have hval : ¬ (!validErrors "warn") = true := by decide
  have hig : ¬ ignoreMatch res .noneArg (strPath p) = true := by simp [ignoreMatch]
  rw [walkdirsSelf_dir_eq res fnm pattern "warn" .noneArg p rn
      (pre ++ .badDir nm cause :: post) hval hig,
    walkdirsSelf_dir_eq res fnm pattern "warn" .noneArg p rn
      (pre ++ .dir nm [] :: post) hval hig,
    walkdirsList_warn_append, walkdirsList_warn_append,
    walkdirsList_warn_cons_dir res fnm pattern .noneArg p (.badDir nm cause) post rfl,
    walkdirsList_warn_cons_dir res fnm pattern .noneArg p (.dir nm []) post rfl]
  simp only [FSTree.name,
    walkdirsSelf_warn_badDir res fnm pattern (p ++ [nm]) nm cause,
    walkdirsSelf_warn_dirnil res fnm pattern (p ++ [nm]) nm]
  rw [walkdirsList_warn_noBad res fnm pattern .noneArg p pre h1,
    walkdirsList_warn_noBad res fnm pattern .noneArg p post h2]
  simp [emptyOut, walkdirsList_warn_err_none res fnm pattern .noneArg p post]

/-- C6: under errors="warn", a directory-listing fault in one subtree
(a bad directory among otherwise-fault-free siblings) causes exactly
one diagnostic to be emitted, carrying the faulting path and its
cause; the faulting subtree contributes no entries — the output
entries equal those of the same tree with the faulting directory
replaced by an empty one, so every sibling entry outside the subtree
is still yielded — and no error is raised. This holds for walk
(lines 325-334) and for walkdirs with its default ignore (387-396). -/
theorem warn_single_diagnostic (res fnm fnm2 : String → String → Bool)
    (pattern pattern2 : Option String) (p : List String) (rn nm cause : String)
    (pre post : List FSTree) (h1 : noBadList pre = true) (h2 : noBadList post = true) :
    (walkSelf fnm pattern "warn" p (.dir rn (pre ++ .badDir nm cause :: post)) =
      ⟨(walkSelf fnm pattern "warn" p (.dir rn (pre ++ .dir nm [] :: post))).entries,
       [(p ++ [nm], cause)], none⟩) ∧
    (walkdirsSelf res fnm2 pattern2 "warn" .noneArg p
        (.dir rn (pre ++ .badDir nm cause :: post)) =
      ⟨(walkdirsSelf res fnm2 pattern2 "warn" .noneArg p
          (.dir rn (pre ++ .dir nm [] :: post))).entries,
       [(p ++ [nm], cause)], none⟩) :=
  ⟨walk_warn_single_diagnostic fnm pattern p rn nm cause pre post h1 h2,
   walkdirs_warn_single_diagnostic res fnm2 pattern2 p rn nm cause pre post h1 h2⟩

theorem warn_single_diagnostic_witness :
    noBadList [FSTree.file "a"] = true ∧
    noBadList [FSTree.dir "c" [FSTree.file "d"]] = true ∧
    ((walkSelf (fun _ _ => true) none "warn" []
        (.dir "r" ([FSTree.file "a"] ++
          .badDir "X" "boom" :: [FSTree.dir "c" [FSTree.file "d"]])) =
      ⟨(walkSelf (fun _ _ => true) none "warn" []
          (.dir "r" ([FSTree.file "a"] ++
            .dir "X" [] :: [FSTree.dir "c" [FSTree.file "d"]]))).entries,
       [(["X"], "boom")], none⟩) ∧
    (walkdirsSelf (fun _ _ => false) (fun _ _ => true) none "warn" .noneArg []
        (.dir "r" ([FSTree.file "a"] ++
          .badDir "X" "boom" :: [FSTree.dir "c" [FSTree.file "d"]])) =
      ⟨(walkdirsSelf (fun _ _ => false) (fun _ _ => true) none "warn" .noneArg []
          (.dir "r" ([FSTree.file "a"] ++
            .dir "X" [] :: [FSTree.dir "c" [FSTree.file "d"]]))).entries,
       [(["X"], "boom")], none⟩)) :=
  ⟨by decide, by decide,
   warn_single_diagnostic (fun _ _ => false) (fun _ _ => true) (fun _ _ => true)
     none none [] "r" "X" "boom" [FSTree.file "a"] [FSTree.dir "c" [FSTree.file "d"]]
     (by decide) (by decide)⟩

end PathHelpers
